import Mathlib

/-!
Verification of the text-completeness / incubator-orchestration core of the
Apex-Agency repository.

The Python code is shallowly embedded over `Str := List Char` (one Lean
character per Python character; all texts in scope are ASCII).  Python string
primitives (`rstrip`, `split`, `endswith`, `find`, slicing, `re` patterns used
by the code) are modelled by executable Lean functions below, and the four
functions the claims are about — `_looks_truncated`, `_maybe_continue_list`,
`_force_truncate_top_n`, `_ensure_complete` from
`app/services/cea_delegation_service.py`, and `run_incubator_session` from
`app/services/incubator_orchestrator.py` — are translated statement by
statement.  Calls to external text generators (`call_local_cea`, `grok_chat`)
are modelled by an oracle argument; a Python exception raised by such a call is
the oracle value `GenRes.exn msg`.
-/

/-- Python strings, one entry per character. -/
abbrev Str := List Char

/-- Python's notion of whitespace for `str.strip` and the regex class `\s`
(ASCII part): space, tab, newline, carriage return, vertical tab, form feed. -/
def pyIsSpace (c : Char) : Bool :=
  c = ' ' || c = '\t' || c = '\n' || c = '\r' || c = Char.ofNat 11 || c = Char.ofNat 12

/-- Python `str.lstrip()` (no argument): drop leading whitespace. -/
def pyLstrip (s : Str) : Str := s.dropWhile pyIsSpace

/-- Python `str.rstrip()` (no argument): drop trailing whitespace. -/
def pyRstrip (s : Str) : Str := (s.reverse.dropWhile pyIsSpace).reverse

/-- Python `str.strip()` (no argument). -/
def pyStrip (s : Str) : Str := pyLstrip (pyRstrip s)

/-- Python `str.rstrip(chars)`: drop trailing characters from the set `cs`. -/
def pyRstripChars (s : Str) (cs : List Char) : Str :=
  (s.reverse.dropWhile (fun c => cs.contains c)).reverse

/-- Python `s.startswith(pre)`. -/
def strStartsWith (s pre : Str) : Bool := decide (s.take pre.length = pre)

/-- Python `s.endswith(suf)`. -/
def strEndsWith (s suf : Str) : Bool := decide (s.drop (s.length - suf.length) = suf)

/-- Python `s.endswith(tuple)` for a tuple of alternatives. -/
def strEndsWithAny (s : Str) (sufs : List Str) : Bool := sufs.any (strEndsWith s)

/-- Python `s.endswith(tuple)` where every alternative is a single character. -/
def endsWithAnyChar (s : Str) (cs : List Char) : Bool :=
  match s.getLast? with
  | some c => cs.contains c
  | none => false

/-- Python `sub in s` (substring containment). -/
def strContains : Str → Str → Bool
  | [], sub => strStartsWith [] sub
  | c :: t, sub => strStartsWith (c :: t) sub || strContains t sub

/-- Index of the first occurrence of `sub` at or after offset `i` (helper). -/
def pyFindAux (sub : Str) : Str → Nat → Option Nat
  | s, i =>
    if strStartsWith s sub then some i
    else
      match s with
      | [] => none
      | _ :: t => pyFindAux sub t (i + 1)

/-- Python `s.find(sub)`: first index, `-1` when absent. -/
def pyFind (s sub : Str) : Int :=
  match pyFindAux sub s 0 with
  | some n => (n : Int)
  | none => -1

/-- Python `s.find(sub, start)` with a nonnegative `start` position. -/
def pyFindFromInt (s sub : Str) (start : Int) : Int :=
  let st : Nat := if start ≥ 0 then start.toNat else ((s.length : Int) + start).toNat
  match pyFindAux sub (s.drop st) 0 with
  | some n => (n + st : Nat)
  | none => -1

/-- Python `s.rfind(sub)`: last index of an occurrence, `-1` when absent. -/
def pyRfind (s sub : Str) : Int :=
  match ((List.range (s.length + 1)).filter
          (fun i => strStartsWith (s.drop i) sub)).getLast? with
  | some i => (i : Int)
  | none => -1

/-- Python slice `s[i:]` (handles negative `i` the Python way). -/
def pySliceFrom (s : Str) (i : Int) : Str :=
  if i ≥ 0 then s.drop i.toNat else s.drop ((s.length : Int) + i).toNat

/-- Python slice `s[:i]` (handles negative `i` the Python way). -/
def pyTakeInt (s : Str) (i : Int) : Str :=
  if i ≥ 0 then s.take i.toNat else s.take ((s.length : Int) + i).toNat

/-- Python slice `s[-n:]` for `n ≥ 0`. -/
def takeLast (n : Nat) (s : Str) : Str := s.drop (s.length - n)

/-- Python slice `xs[-n:]` on a list of lines. -/
def takeLastList (n : Nat) (xs : List Str) : List Str := xs.drop (xs.length - n)

/-- Python `s.split(sep)` for a single-character separator `c`. -/
def splitOnChar (c : Char) : Str → List Str
  | [] => [[]]
  | x :: xs =>
    if x = c then [] :: splitOnChar c xs
    else
      match splitOnChar c xs with
      | [] => [[x]]
      | h :: t => (x :: h) :: t

/-- Python `"\n".join(lines)`. -/
def joinLines : List Str → Str
  | [] => []
  | [l] => l
  | l :: ls => l ++ '\n' :: joinLines ls

/-- Length bound used by the termination proofs below. -/
theorem len_dropWhile_le {α : Type} (p : α → Bool) :
    ∀ l : List α, (l.dropWhile p).length ≤ l.length := by
  intro l
  induction l with
  | nil => simp [List.dropWhile]
  | cons x xs ih =>
    simp only [List.dropWhile]
    cases p x <;> simp <;> omega

/-- Python `s.split()` (no argument): split on whitespace runs, discarding
empties.  `acc` is the current word, reversed (structural recursion so that the
kernel can evaluate concrete instances). -/
def pySplitWsGo : Str → Str → List Str
  | [], acc => if acc = [] then [] else [acc.reverse]
  | c :: t, acc =>
    if pyIsSpace c then
      if acc = [] then pySplitWsGo t [] else acc.reverse :: pySplitWsGo t []
    else pySplitWsGo t (c :: acc)

/-- Python `s.split()` (no argument). -/
def pySplitWs (s : Str) : List Str := pySplitWsGo s []

/-- Python `s.count(sub)` for a nonempty pattern: non-overlapping count.  On a
match the scan skips the rest of the pattern, tracked by the skip counter. -/
def countSubstrGo (sub : Str) : Str → Nat → Nat
  | [], _ => 0
  | _ :: t, k + 1 => countSubstrGo sub t k
  | c :: t, 0 =>
    if strStartsWith (c :: t) sub then 1 + countSubstrGo sub t (sub.length - 1)
    else countSubstrGo sub t 0

/-- Python `s.count(sub)` (for the empty pattern Python returns `len+1`). -/
def countSubstr (s sub : Str) : Nat :=
  if sub = [] then s.length + 1 else countSubstrGo sub s 0

/-- Python `s.replace(sub, repl)` for a nonempty pattern: on a match, emit the
replacement and skip the rest of the pattern (skip counter). -/
def replaceSubGo (sub repl : Str) : Str → Nat → Str
  | [], _ => []
  | _ :: t, k + 1 => replaceSubGo sub repl t k
  | c :: t, 0 =>
    if strStartsWith (c :: t) sub then repl ++ replaceSubGo sub repl t (sub.length - 1)
    else c :: replaceSubGo sub repl t 0

/-- Python `s.replace(sub, repl)`. -/
def replaceSub (s sub repl : Str) : Str :=
  if sub = [] then s else replaceSubGo sub repl s 0

/-- ASCII lowercasing, the fragment of Python `str.lower()` the code relies on. -/
def asciiLower (c : Char) : Char :=
  if 'A' ≤ c && c ≤ 'Z' then Char.ofNat (c.toNat + 32) else c

/-- Python `s.lower()` on ASCII text. -/
def asciiLowerStr (s : Str) : Str := s.map asciiLower

/-- Value of a decimal digit string (the code applies `int` to `\d+` captures). -/
def digitsToNat (ds : Str) : Nat := ds.foldl (fun a c => 10 * a + (c.toNat - 48)) 0

/-- Decimal representation of a natural number (Python f-string `f"{n}"`). -/
def natToStr (n : Nat) : Str := Nat.toDigits 10 n

/-- Match of the regex `top\s+(\d+)` at the start of `s`: the captured digit
run, if `s` begins with `top`, then one or more whitespace characters, then at
least one digit (helper for `searchTopN`). -/
def matchTopAt (s : Str) : Option Str :=
  match s with
  | 't' :: 'o' :: 'p' :: rest =>
    if rest.takeWhile pyIsSpace = [] then none
    else
      let rest2 := rest.dropWhile pyIsSpace
      let ds := rest2.takeWhile Char.isDigit
      if ds = [] then none else some ds
  | _ => none

/-- Python `re.search(r"top\s+(\d+)", s)` followed by `int(m.group(1))`:
the number captured at the leftmost match, if any.  (The pattern has no word
boundary, so e.g. `laptop 5` also matches; the model reproduces that.) -/
def searchTopN : Str → Option Nat
  | [] => none
  | c :: rest =>
    match matchTopAt (c :: rest) with
    | some ds => some (digitsToNat ds)
    | none => searchTopN rest

/-- The digit capture of `re.match(r"^\s*(\d+)\.", line)`: leading whitespace,
then a maximal nonempty digit run, then a literal dot.  (With a greedy `\d+`
followed by a forced `.`, the regex matches exactly when the maximal digit run
after the whitespace is nonempty and followed by `.`.) -/
def lineItemDigits (l : Str) : Option Str :=
  let l1 := l.dropWhile pyIsSpace
  let ds := l1.takeWhile Char.isDigit
  if ds ≠ [] ∧ (l1.drop ds.length).head? = some '.' then some ds else none

/-- `int` of the capture of `re.match(r"^\s*(\d+)\.", line)`. -/
def lineItemNum (l : Str) : Option Nat := (lineItemDigits l).map digitsToNat

/-- Python `re.findall(r"^\s*(\d+)\.", text, flags=re.MULTILINE)`, as capture
strings.  With `MULTILINE`, `^` anchors at each line start; a match whose
`\s*` spans whitespace-only lines captures the same digit run as the per-line
match on the line holding the digits, so per-line scanning yields the same
list of captures. -/
def itemDigits (text : Str) : List Str :=
  (splitOnChar '\n' text).filterMap lineItemDigits

/-- `[int(n) for n in re.findall(r"^\s*(\d+)\.", text, re.MULTILINE)]`. -/
def itemNums (text : Str) : List Nat :=
  (splitOnChar '\n' text).filterMap lineItemNum

/-- Maximum of a list of naturals (0 for the empty list). -/
def listMax : List Nat → Nat
  | [] => 0
  | n :: ns => max n (listMax ns)

/-- The code's `nums = sorted({int(n) for n in items}); nums[-1]`:
the last element of the sorted deduplicated item numbers is their maximum, so
`nums` being nonempty with `nums[-1] = m` is `maxItemNum text = some m`. -/
def maxItemNum (text : Str) : Option Nat :=
  match itemNums text with
  | [] => none
  | n :: ns => some (listMax (n :: ns))

/-- The tuple `(".", "!", "?", ":", "\"", ")", "]", "}")` of "proper ending"
characters that `cea_delegation_service.py` tests with `endswith` (the last
entry is the closing curly brace, written via its code point). -/
def propEndChars : List Char := ['.', '!', '?', ':', Char.ofNat 34, ')', ']', Char.ofNat 125]

/-- `text.rstrip().endswith((".", "!", "?", ":", "\"", ")", "]", "}"))` on an
already-stripped argument. -/
def endsProper (s : Str) : Bool := endsWithAnyChar s propEndChars

/-- The end-of-output sentinel literal `[END]` used throughout the service. -/
def sentinel : Str := '[' :: 'E' :: 'N' :: 'D' :: [']']

/-- Python `re.split(r'[.!?]\s+', s)`: split at every occurrence of a sentence
punctuation character followed by a maximal nonempty whitespace run, removing
the matched separator.  The `skip` flag marks the whitespace run of a
just-matched separator still being consumed. -/
def splitSentencesGo : Str → Bool → List Str
  | [], _ => [[]]
  | c :: t, skip =>
    if skip && pyIsSpace c then splitSentencesGo t true
    else if (c = '.' || c = '!' || c = '?') && t.head?.any pyIsSpace then
      [] :: splitSentencesGo t true
    else
      match splitSentencesGo t false with
      | [] => [[c]]
      | h :: hs => (c :: h) :: hs

/-- Python `re.split(r'[.!?]\s+', s)`. -/
def splitSentences (s : Str) : List Str := splitSentencesGo s false

/-- The character set of `last_word = words[-1].rstrip(".,!?;:)\"]}")` in
`_looks_truncated` (the quote and closing curly brace via code points). -/
def wordPunctChars : List Char :=
  ['.', ',', '!', '?', ';', ':', ')', Char.ofNat 34, ']', Char.ofNat 125]

/-- Lines 561-575 of `cea_delegation_service.py` (`_looks_truncated`): when the
request matches `top\s+(\d+)` with target `N`, the text's numbered items are
nonempty with maximum exactly `N`, and the stripped text ends in a "proper
ending" character, the classifier returns False early.  This definition is that
early-exit condition. -/
def topn_exact_exit (msg text : Str) : Bool :=
  if msg ≠ [] then
    match searchTopN (asciiLowerStr msg) with
    | some target =>
      match maxItemNum text with
      | some m => m = target && endsProper (pyRstrip text)
      | none => false
    | none => false
  else false

/-- Lines 604-610: scan `lines` from the end (`range(len-1, max(0, len-20), -1)`,
so index 0 is never inspected) for the last line containing a pipe. -/
def lastPipeLineIdx (lines : List Str) : Option Nat :=
  let stop := max 0 (lines.length - 20)
  ((List.range lines.length).filter
    (fun i => decide (stop < i) && strContains (lines.getD i []) ['|'])).getLast?

/-- The mojibake bullet literal that appears in the source (the UTF-8 bytes of
a bullet decoded as cp1252: the three code points U+201A, U+00C4, U+00A2). -/
def bulletSeq : Str := [Char.ofNat 0x201A, Char.ofNat 0xC4, Char.ofNat 0xA2]

/-- The keyword list of line 638 (`suggests_multiple`). -/
def multiWords : List Str :=
  ["cadence".data, "timeline".data, "steps".data, "phases".data,
   "schedule".data, "checklist".data, "items".data, "tasks".data]

/-- Lines 630-649: the body executed for the first stripped line (scanning the
last lines backwards) that starts with a heading marker.  Returns the truncation
verdict of that header check. -/
def headerCheck (tail ls : Str) : Bool :=
  let header_pos := pyRfind tail ls
  let content_after := pyStrip (pySliceFrom tail (header_pos + (ls.length : Int)))
  let header_lower := asciiLowerStr ls
  let suggests_multiple := multiWords.any (fun w => strContains header_lower w)
  if suggests_multiple then
    let bullets_after :=
      content_after.count '-' + content_after.count '*' + countSubstr content_after bulletSeq
    let numbered_items :=
      ((splitOnChar '\n' content_after).filter
        (fun l2 =>
          let l2s := pyStrip l2
          !(l2s.isEmpty) &&
            ((l2s.headD ' ').isDigit || strStartsWith l2s ['-'] ||
             strStartsWith l2s ['*'] || strStartsWith l2s bulletSeq))).length
    if numbered_items ≤ 2 && bullets_after ≤ 2 then true
    else if content_after.length < 100 then true
    else false
  else if content_after.length < 100 then true
  else false

/-- Lines 627-649: iterate the candidate lines in reverse; at the first one
whose stripped form starts with a heading marker, run `headerCheck` and stop
(the Python loop breaks after the first header). -/
def headerScanGo (tail : Str) : List Str → Bool
  | [] => false
  | l :: rest =>
    let ls := pyStrip l
    if strStartsWith ls ['#'] then headerCheck tail ls
    else headerScanGo tail rest

/-- Line 627: `last_lines = tail.split("\n")[-10:] if "\n" in tail else [tail]`,
then the reversed header scan. -/
def headerScan (tail : Str) : Bool :=
  let last_lines :=
    if strContains tail ['\n'] then takeLastList 10 (splitOnChar '\n' tail) else [tail]
  headerScanGo tail last_lines.reverse

/-- Lines 593-649 of `_looks_truncated`: the additional checks applied when the
text ends in sentence punctuation and is longer than 500 characters. -/
def rule3Long (tail : Str) : Bool :=
  let last_sentence :=
    if strContains tail ['.'] then (splitOnChar '.' tail).getLastD [] else tail
  if (pyStrip last_sentence).length < 20 then true
  else
    let tableTrunc :=
      if strContains (takeLast 300 tail) ['|'] then
        let lines := splitOnChar '\n' tail
        match lastPipeLineIdx lines with
        | some i =>
          let content_after_table := pyStrip (joinLines (lines.drop (i + 1)))
          if content_after_table.length < 50 then
            let last_table_line := pyStrip (lines.getD i [])
            if !(strEndsWith last_table_line ['|']) || last_table_line.count '|' < 2 then true
            else if tail.length > 3000 then true
            else false
          else false
        | none => false
      else false
    if tableTrunc then true
    else headerScan tail

/-- `_looks_truncated(text, user_message)` (lines 556-728 of
`cea_delegation_service.py`).

The branch taken when the stripped text does not end in `.`/`!`/`?`
(lines 652-728) contains twelve `return` statements and a final fall-through
`return True`, and every one of those returns is `return True`; that whole
branch therefore evaluates to `true`, which is how it is rendered here. -/
def looks_truncated (text : Str) (msg : Str) : Bool :=
  if text = [] then false
  else if topn_exact_exit msg text then false
  else
    let tail := pyRstrip text
    if strContains tail sentinel then false
    else if endsWithAnyChar tail ['.', '!', '?'] then
      let words := pySplitWs tail
      let shortWord :=
        match words.getLast? with
        | some w => decide ((pyRstripChars w wordPunctChars).length < 4)
        | none => false
      if shortWord then true
      else if tail.length > 500 then rule3Long tail
      else false
    else true

/-- Result of one call to an external generator (`call_local_cea` /
`grok_chat`): either the returned text or a raised exception with its message
(`str(e)`). -/
inductive GenRes where
  | ok : Str → GenRes
  | exn : Str → GenRes
deriving DecidableEq

/-- One step of the line scans of `_maybe_continue_list` (lines 359-373 and
386-393) and of the "nuclear option" of `_force_truncate_top_n` (lines 80-87):
a line is kept when it is not a numbered item with number above the target
(the scans `break` exactly at the first such line). -/
def keepLine (l : Str) (target : Nat) : Bool :=
  match lineItemNum l with
  | some n => decide (n ≤ target)
  | none => true

/-- Lines 514-531 (and the identical block at lines 535-547) of
`_maybe_continue_list`: after appending a continuation, if the item numbers
now exceed `target`, cut at the first occurrence of the marker of item
`target+1` found after the first occurrence of the marker of item `target`,
and append a dot when the result does not end in a proper ending character. -/
def mclCapTarget (combined0 : Str) (target : Nat) : Str :=
  if (maxItemNum combined0).getD 0 > target then
    let target_marker := natToStr target ++ ['.']
    let target_pos := pyFind combined0 target_marker
    if target_pos ≥ 0 then
      let next_item_pos := pyFindFromInt combined0 (natToStr (target + 1) ++ ['.']) target_pos
      let c1 := if next_item_pos ≥ 0 then pyRstrip (pyTakeInt combined0 next_item_pos) else combined0
      if !(endsProper (pyRstrip c1)) then pyRstrip c1 ++ ['.'] else c1
    else combined0
  else combined0

/-- Lines 359-377 of `_maybe_continue_list`: the take-until-overflow scan
(numbered lines above the target stop the scan, everything else is kept),
joined and rstripped. -/
def mclCore (text : Str) (target : Nat) : Str :=
  pyRstrip (joinLines ((splitOnChar '\n' text).takeWhile (fun l => keepLine l target)))

/-- Lines 379-394 of `_maybe_continue_list`: when the joined result still has
an item number above the target, re-run the same take-until-overflow scan over
the original lines (stage 1 of `mclTruncate`). -/
def mclVerify (truncated1 : Str) (lines : List Str) (target : Nat) : Str :=
  if (maxItemNum truncated1).getD 0 > target then
    pyRstrip (joinLines (lines.takeWhile (fun l => keepLine l target)))
  else truncated1

/-- Lines 396-399: strip, then append a dot when the text is nonempty and does
not already end in a proper ending character (stage 2 of `mclTruncate`). -/
def mclDot (truncated3 : Str) : Str :=
  if truncated3 ≠ [] ∧ ¬ endsProper truncated3 then truncated3 ++ ['.'] else truncated3

/-- Lines 401-415: the final verification against the result's own lines
(stage 3 of `mclTruncate`). -/
def mclFinal (truncated4 : Str) (target : Nat) : Str :=
  if (maxItemNum truncated4).getD 0 > target then
    pyRstrip (joinLines ((splitOnChar '\n' truncated4).takeWhile (fun l => keepLine l target)))
  else truncated4

/-- Lines 351-418 of `_maybe_continue_list` (the `last > target` branch),
assembled from the stages above: the take-until-overflow scan of the lines
(non-numbered lines are always kept), re-verification, strip and dot, final
verification. -/
def mclTruncate (text : Str) (target : Nat) : Str :=
  mclFinal
    (mclDot (pyRstrip (mclVerify (mclCore text target) (splitOnChar '\n' text) target)))
    target

/-- `_maybe_continue_list(user_message, text)` (lines 334-553 of
`cea_delegation_service.py`).

`gen` is the outcome of the (at most one) `call_local_cea` continuation call a
single invocation can make; a raised exception (`GenRes.exn`) is caught by the
function's outer `try`/`except`, which returns `text` unchanged.
`nums = sorted({...}); last = nums[-1]` is rendered through `maxItemNum`
(the last element of the sorted set is the maximum). -/
def maybe_continue_list (gen : GenRes) (msg text : Str) : Str :=
  match searchTopN (asciiLowerStr msg) with
  | none => text
  | some target =>
    match maxItemNum text with
    | none => text
    | some last =>
      if last > target then mclTruncate text target
      else if last = target then
        -- lines 421-449
        let tep := endsProper (pyRstrip text)
        if tep then text
        else
          let marker := natToStr last ++ ['.']
          let pos := pyRfind text marker
          if pos ≥ 0 then
            let after_marker := pyStrip (pySliceFrom text (pos + (marker.length : Int)))
            if after_marker ≠ [] ∧ ¬ tep then
              match gen with
              | .exn _ => text
              | .ok continuation =>
                if pyStrip continuation ≠ [] then
                  let pos2 := pyRfind text marker
                  if pos2 ≥ 0 then
                    pyRstrip (pyTakeInt text pos2) ++ '\n' :: '\n' ::
                      pyStrip (replaceSub (pyStrip continuation) sentinel [])
                  else text
                else text
            else text
          else text
      else
        -- lines 451-550 (fewer items than the target)
        let tep := endsProper (pyRstrip text)
        let marker := natToStr last ++ ['.']
        let posL := pyRfind text marker
        let last_item_incomplete :=
          if posL ≥ 0 then
            let after_marker := pyStrip (pySliceFrom text (posL + (marker.length : Int)))
            after_marker ≠ [] ∧ ¬ tep
          else False
        let start_from := if last_item_incomplete then last else last + 1
        match gen with
        | .exn _ => text
        | .ok continuation0 =>
          if pyStrip continuation0 = [] then text
          else
            let continuation := pyStrip (replaceSub (pyStrip continuation0) sentinel [])
            let existing_items := itemDigits text
            let continuation_items := itemDigits continuation
            let new_items := continuation_items.filter (fun d => !(existing_items.contains d))
            if new_items = [] then text
            else
              let starts_correctly :=
                strContains continuation (natToStr start_from ++ ['.']) ∨
                (last_item_incomplete ∧
                  (strContains continuation (natToStr last ++ ['.']) ∨
                   strStartsWith (pyStrip continuation) (natToStr last)))
              if starts_correctly then
                let sep : Str :=
                  if strEndsWithAny (pyRstrip text) [['\n'], ['\n', '\n']]
                  then ['\n'] else ['\n', '\n']
                if last_item_incomplete ∧ strContains continuation (natToStr last ++ ['.']) then
                  let pos3 := pyRfind text (natToStr last ++ ['.'])
                  if pos3 ≥ 0 then
                    mclCapTarget (pyRstrip (pyTakeInt text pos3) ++ '\n' :: '\n' :: continuation)
                      target
                  else mclCapTarget (text ++ sep ++ continuation) target
                else mclCapTarget (text ++ sep ++ continuation) target
              else text

/-- The first line scan of `_force_truncate_top_n` (lines 25-45): numbered
lines above the target stop the scan; numbered lines at or below it are kept;
non-numbered lines are kept while `items_found` is empty or its last entry is
at or below the target, and stop the scan otherwise.  Only emptiness and the
last entry of `items_found` are consulted, so the accumulator is carried as
`Option Nat` (the last number found, `none` for "empty"). -/
def ftLoop (target : Nat) : List Str → Option Nat → List Str
  | [], _ => []
  | l :: rest, lastF =>
    match lineItemNum l with
    | some n => if n > target then [] else l :: ftLoop target rest (some n)
    | none =>
      match lastF with
      | none => l :: ftLoop target rest none
      | some m => if m ≤ target then l :: ftLoop target rest (some m) else []

/-- Lines 50-73 of `_force_truncate_top_n`: the "aggressive verification"
re-cut via marker positions; when the marker of item `target+1` is absent, the
original `lines` are scanned for the first line numbered above the target and
the join of the lines before it is taken. -/
def ftVerify (truncated1 : Str) (lines : List Str) (target : Nat) : Str :=
  if (maxItemNum truncated1).getD 0 > target then
    let target_marker := natToStr target ++ ['.']
    let target_pos := pyFind truncated1 target_marker
    if target_pos ≥ 0 then
      let next_pos := pyFindFromInt truncated1 (natToStr (target + 1) ++ ['.']) target_pos
      if next_pos ≥ 0 then pyRstrip (pyTakeInt truncated1 next_pos)
      else
        match (List.range lines.length).find?
            (fun i => !(keepLine (lines.getD i []) target)) with
        | some i => pyRstrip (joinLines (lines.take i))
        | none => truncated1
    else truncated1
  else truncated1

/-- Lines 76-87 of `_force_truncate_top_n`: the "nuclear option" re-scan of
the original lines, stopping before the first line numbered above the target
(non-numbered lines are always kept here). -/
def ftNuclear (truncated2 : Str) (lines : List Str) (target : Nat) : Str :=
  if (maxItemNum truncated2).getD 0 > target then
    pyRstrip (joinLines (lines.takeWhile (fun l => keepLine l target)))
  else truncated2

/-- `_force_truncate_top_n(text, target)` (lines 13-93 of
`cea_delegation_service.py`): the first scan, the "aggressive verification"
re-cut via marker positions (lines 50-73, searching the original `lines` when
the marker of item `target+1` is absent), and the "nuclear option" re-scan of
the original lines (lines 76-87). -/
def force_truncate_top_n (text : Str) (target : Nat) : Str :=
  if text = [] ∨ pyStrip text = [] then text
  else
    let lines := splitOnChar '\n' text
    ftNuclear (ftVerify (pyRstrip (joinLines (ftLoop target lines none))) lines target)
      lines target

/-- Error-message fragments tested at lines 809 and 820 of
`cea_delegation_service.py`. -/
def connRefusedMsg : Str := "Connection refused".data

/-- Second fragment of the same connection-error test. -/
def failReachMsg : Str := "Failed to reach local CEA model".data

/-- Note appended at line 812 when both providers are unavailable. -/
def noteGrok : Str := "\n\n[Note: Response may be incomplete due to service unavailability]".data

/-- Note appended at line 823 when the local provider is unavailable. -/
def noteOllama : Str :=
  "\n\n[Note: Response may be incomplete due to Ollama service unavailability]".data

/-- The four duplicate-continuation checks of `_ensure_complete`
(lines 840-882).  The float thresholds are exact small rationals compared with
exact ratios of small integers, so `x/n > 0.6`, `> 0.5`, `> 0.7` are rendered
as `5*x > 3*n`, `2*x > n`, `10*x > 7*n` (a ratio of integers below 2^50 is
either exactly the threshold — in which case the float comparison is also
false — or differs from it by far more than one ulp). -/
def dedupSkip (out cont_clean : Str) : Bool :=
  -- 1: duplicate sentences (lines 844-851)
  let s1 :=
    if out.length > 200 && cont_clean.length > 100 then
      let out_sentences := splitSentences (asciiLowerStr (takeLast 1500 out))
      let cont_sentences := splitSentences (asciiLowerStr cont_clean)
      if cont_sentences.length > 0 then
        let dup := (cont_sentences.filter
          (fun s => !(pyStrip s).isEmpty && (pyStrip s).length > 20 &&
            out_sentences.contains (pyStrip s))).length
        decide (5 * dup > 3 * cont_sentences.length)
      else false
    else false
  if s1 then true else
  -- 2: duplicate numbered items (lines 854-861)
  let s2 :=
    if cont_clean.length > 50 then
      let existing_items := itemDigits out
      let continuation_items := itemDigits cont_clean
      if !continuation_items.isEmpty then
        let dup := (continuation_items.filter (fun d => existing_items.contains d)).length
        decide (2 * dup > continuation_items.length)
      else false
    else false
  if s2 then true else
  -- 3: word overlap (lines 864-874)
  let s3 :=
    if out.length > 500 && cont_clean.length > 100 then
      let out_words := pySplitWs (asciiLowerStr (takeLast 1500 out))
      let cont_words := pySplitWs (asciiLowerStr cont_clean)
      if cont_words.length > 10 then
        let matching := (cont_words.filter
          (fun w => w.length > 3 && out_words.contains w)).length
        decide (10 * matching > 7 * cont_words.length)
      else false
    else false
  if s3 then true else
  -- 4: exact head/tail overlap (lines 877-882)
  if out.length > 100 && cont_clean.length > 50 then
    let out_tail := pyStrip (asciiLowerStr (takeLast 100 out))
    let cont_head := pyStrip (asciiLowerStr (cont_clean.take 100))
    decide (cont_head.length > 50) && decide (takeLast 50 out_tail = cont_head.take 50)
  else false

/-- The `while` loop of `_ensure_complete` (lines 753-934), as recursion on the
remaining iteration budget.  `fuel` is `max_iters - iters` before the next
iteration, so the in-loop test `iters >= max_iters` is `fuel = 0` after
entering an iteration; a `continue` at exhausted fuel and a `break` both leave
the loop with the same text.  `k` counts oracle calls: with `useGrok` each
iteration consults `gen k` (Grok) and, if that raises, `gen (k+1)` (the local
fallback of lines 801-817); without it only `gen k` (the local call of
line 796).  The returned `Nat` is the number of executed loop iterations. -/
def ecIter (gen : Nat → GenRes) (useGrok : Bool) (msg : Str) :
    Nat → Nat → Str → Str × Nat
  | 0, _, out => (out, 0)
  | fuel + 1, k, out =>
    if !(looks_truncated out msg) then (out, 0)
    else
      -- iters += 1; obtain a continuation or a final error (lines 789-828)
      let step : (Str ⊕ Str) × Nat :=
        if useGrok then
          match gen k with
          | .ok s => (Sum.inl s, k + 1)
          | .exn _ =>
            match gen (k + 1) with
            | .ok s => (Sum.inl s, k + 2)
            | .exn e2 => (Sum.inr e2, k + 2)
        else
          match gen k with
          | .ok s => (Sum.inl s, k + 1)
          | .exn e => (Sum.inr e, k + 1)
      match step with
      | (Sum.inr e, k2) =>
        if strContains e connRefusedMsg || strContains e failReachMsg then
          -- lines 808-813 / 819-824: append the note when still truncated, break
          let out2 :=
            if looks_truncated out msg then
              out ++ (if useGrok then noteGrok else noteOllama)
            else out
          (out2, 1)
        else if fuel = 0 then (out, 1)
        else
          let r := ecIter gen useGrok msg fuel k2 out
          (r.1, r.2 + 1)
      | (Sum.inl cont, k2) =>
        if pyStrip cont = [] then
          -- lines 830-835: empty continuation
          if fuel = 0 then (out, 1)
          else
            let r := ecIter gen useGrok msg fuel k2 out
            (r.1, r.2 + 1)
        else
          let cont_clean := pyStrip (replaceSub (pyStrip cont) sentinel [])
          if dedupSkip out cont_clean then
            -- lines 884-892
            if !(looks_truncated out msg) then (out, 1)
            else if fuel = 0 then (out, 1)
            else
              let r := ecIter gen useGrok msg fuel k2 out
              (r.1, r.2 + 1)
          else
            -- lines 894-934: append and decide whether to stop
            let sep : Str :=
              if strEndsWithAny (pyRstrip out) [['\n'], ['\n', '\n']]
              then ['\n'] else ['\n', '\n']
            let out2 := out ++ sep ++ cont_clean
            let cont_ends_properly := endsWithAnyChar (pyRstrip cont_clean) ['.', '!', '?']
            if (pyStrip cont_clean).length < 100 then
              let r := ecIter gen useGrok msg fuel k2 out2
              (r.1, r.2 + 1)
            else if strContains cont sentinel then
              if !(looks_truncated out2 msg) then (out2, 1)
              else
                let r := ecIter gen useGrok msg fuel k2 out2
                (r.1, r.2 + 1)
            else if looks_truncated out2 msg then
              let r := ecIter gen useGrok msg fuel k2 out2
              (r.1, r.2 + 1)
            else if cont_ends_properly then (out2, 1)
            else
              let r := ecIter gen useGrok msg fuel k2 out2
              (r.1, r.2 + 1)

/-- `_ensure_complete(user_message, text, max_iters)` (lines 731-945 of
`cea_delegation_service.py`).  The whole Python body is wrapped in a
`try`/`except` that returns `text`; every operation inside either is total or
has its exceptions handled in the loop (modelled by `GenRes.exn`), so the
model is the loop itself.  `out = text or ""` is the identity on `Str` (a
falsy text is already `[]`).  The second component is the number of loop
iterations executed (0 means the continuation generator was never invoked).
`useGrok` is the `CEA_USE_GROK_FOR_CONTINUATION` flag (default true). -/
def ensure_complete (gen : Nat → GenRes) (useGrok : Bool) (msg text : Str)
    (max_iters : Nat := 3) : Str × Nat :=
  ecIter gen useGrok msg max_iters 0 text

/-- The per-agent loop of `run_incubator_session` (lines 324-353 of
`incubator_orchestrator.py`), over roster positions `start, start+1, ...` with
`count` agents left.  `expired i` is the value of `session.is_time_expired()`
at the check performed before starting the agent at position `i`; `outcomes i`
is the `(insight, success)` pair returned by `run_agent_analysis` for that
agent.  On success the insight is stored with agent status `completed`; on
failure the error text is stored as the insight (line 352: "Store error
message") with agent status `failed`.  Returns the `agent_insights` and
`agent_status` entries in roster order. -/
def agentLoop (expired : Nat → Bool) (outcomes : Nat → Str × Bool) :
    Nat → Nat → List (Nat × Str) × List (Nat × String)
  | 0, _ => ([], [])
  | count + 1, i =>
    if expired i then ([], [])
    else
      let insight := (outcomes i).1
      let success := (outcomes i).2
      let st : String := if success then "completed" else "failed"
      let rest := agentLoop expired outcomes count (i + 1)
      ((i, insight) :: rest.1, (i, st) :: rest.2)

/-- Result of one modelled incubator session: the recorded insights and agent
statuses, the ordered list of values assigned to `session.status`, whether the
synthesis phase was entered, and the final business plan (if any). -/
structure SessionResult where
  insights : List (Nat × Str)
  agent_status : List (Nat × String)
  trace : List String
  synth_attempted : Bool
  final_plan : Option Str
deriving Repr

/-- `run_incubator_session(business_idea, session_id)` (lines 300-582 of
`incubator_orchestrator.py`), for a roster of `n` agents (the fixed roster of
`get_all_agent_roles()`, identified by position).

`synth` is the outcome of the synthesis block of lines 395-443 (retries and
Grok fallback included): `some p` when it left `business_plan = p`, `none`
when every attempt raised and no fallback produced text.  `complete` stands
for the truncation-repair applied to a non-empty plan at lines 449-509 (its
internal generator calls all catch their own exceptions, so it is a total text
transformation and never affects the status).

Status assignments in source order: `initialized` (constructor, line 177),
`running` (line 313), then either `failed` (line 357, only when
`agent_insights` is empty) or `synthesizing` (line 366) followed by
`completed` (line 512, non-empty plan) or `failed` (line 518, empty plan;
line 531, synthesis exception). -/
def run_incubator_session (n : Nat) (expired : Nat → Bool)
    (outcomes : Nat → Str × Bool) (synth : Option Str) (complete : Str → Str) :
    SessionResult :=
  let r := agentLoop expired outcomes n 0
  if r.1.length = 0 then
    { insights := r.1, agent_status := r.2,
      trace := ["initialized", "running", "failed"],
      synth_attempted := false, final_plan := none }
  else
    match synth with
    | some p =>
      if p ≠ [] ∧ (pyStrip p).length > 0 then
        { insights := r.1, agent_status := r.2,
          trace := ["initialized", "running", "synthesizing", "completed"],
          synth_attempted := true, final_plan := some (complete p) }
      else
        { insights := r.1, agent_status := r.2,
          trace := ["initialized", "running", "synthesizing", "failed"],
          synth_attempted := true, final_plan := none }
    | none =>
      { insights := r.1, agent_status := r.2,
        trace := ["initialized", "running", "synthesizing", "failed"],
        synth_attempted := true, final_plan := none }

/-- `splitOnChar` never returns the empty list of lines. -/
theorem splitOnChar_ne_nil (c : Char) : ∀ s : Str, splitOnChar c s ≠ []
  | [] => by simp [splitOnChar]
  | x :: xs => by
    simp only [splitOnChar]
    split
    · simp
    · cases h : splitOnChar c xs <;> simp

/-- A chunk produced by `splitOnChar` does not contain the separator. -/
theorem mem_splitOnChar_not_mem {c : Char} :
    ∀ {s l : Str}, l ∈ splitOnChar c s → c ∉ l := by
  intro s
  induction s with
  | nil =>
    intro l h
    simp [splitOnChar] at h
    simp [h]
  | cons x xs ih =>
    intro l h
    simp only [splitOnChar] at h
    by_cases hx : x = c
    · simp only [if_pos hx, List.mem_cons] at h
      rcases h with h | h
      · simp [h]
      · exact ih h
    · rcases hsp : splitOnChar c xs with _ | ⟨a, b⟩
      · exact absurd hsp (splitOnChar_ne_nil c xs)
      · rw [if_neg hx, hsp] at h
        simp only [List.mem_cons] at h
        rcases h with h | h
        · subst h
          intro hc
          rcases List.mem_cons.mp hc with h | h
          · exact hx h.symm
          · exact ih (hsp ▸ List.mem_cons_self a b) h
        · exact ih (hsp ▸ List.mem_cons_of_mem a h)

/-- Characters of a chunk of `splitOnChar` are characters of the original. -/
theorem mem_of_mem_splitOnChar {c x : Char} :
    ∀ {s l : Str}, l ∈ splitOnChar c s → x ∈ l → x ∈ s := by
  intro s
  induction s with
  | nil =>
    intro l h hx
    simp [splitOnChar] at h
    simp [h] at hx
  | cons y ys ih =>
    intro l h hx
    simp only [splitOnChar] at h
    by_cases hy : y = c
    · simp only [if_pos hy, List.mem_cons] at h
      rcases h with h | h
      · simp [h] at hx
      · exact List.mem_cons_of_mem _ (ih h hx)
    · rcases hsp : splitOnChar c ys with _ | ⟨a, b⟩
      · exact absurd hsp (splitOnChar_ne_nil c ys)
      · rw [if_neg hy, hsp] at h
        simp only [List.mem_cons] at h
        rcases h with h | h
        · subst h
          rcases List.mem_cons.mp hx with h | h
          · exact h ▸ List.mem_cons_self y ys
          · exact List.mem_cons_of_mem _ (ih (hsp ▸ List.mem_cons_self a b) h)
        · exact List.mem_cons_of_mem _ (ih (hsp ▸ List.mem_cons_of_mem a h) hx)

/-- `splitOnChar` of a separator-free string is a single chunk. -/
theorem splitOnChar_no_sep {c : Char} : ∀ {s : Str}, c ∉ s → splitOnChar c s = [s] := by
  intro s
  induction s with
  | nil => intro _; simp [splitOnChar]
  | cons x xs ih =>
    intro h
    have hx : ¬ x = c := fun he => h (he ▸ List.mem_cons_self x xs)
    have hxs : c ∉ xs := fun hm => h (List.mem_cons_of_mem x hm)
    simp only [splitOnChar, if_neg hx, ih hxs]

/-- Splitting `a ++ sep ++ b` when `a` is separator-free: the chunk `a`
followed by the chunks of `b`. -/
theorem splitOnChar_append_cons {c : Char} :
    ∀ {a : Str}, c ∉ a → ∀ b : Str, splitOnChar c (a ++ c :: b) = a :: splitOnChar c b := by
  intro a
  induction a with
  | nil => intro _ b; simp [splitOnChar]
  | cons x xs ih =>
    intro h b
    have hx : ¬ x = c := fun he => h (he ▸ List.mem_cons_self x xs)
    have hxs : c ∉ xs := fun hm => h (List.mem_cons_of_mem x hm)
    simp only [List.cons_append, splitOnChar, if_neg hx, List.append_eq, ih hxs b]

/-- `splitOnChar '\n'` is a left inverse of `joinLines` on newline-free lines. -/
theorem splitOnChar_joinLines :
    ∀ {ls : List Str}, ls ≠ [] → (∀ l ∈ ls, '\n' ∉ l) →
      splitOnChar '\n' (joinLines ls) = ls := by
  intro ls
  induction ls with
  | nil => intro h; exact absurd rfl h
  | cons l rest ih =>
    intro _ hnl
    cases rest with
    | nil =>
      simp only [joinLines]
      exact splitOnChar_no_sep (hnl l (List.mem_cons_self l []))
    | cons l2 rest2 =>
      have h1 : joinLines (l :: l2 :: rest2) = l ++ '\n' :: joinLines (l2 :: rest2) := rfl
      rw [h1, splitOnChar_append_cons (hnl l (List.mem_cons_self _ _)),
        ih (by simp) (fun x hx => hnl x (List.mem_cons_of_mem l hx))]

/-- Appending a whitespace character does not change `rstrip`. -/
theorem pyRstrip_snoc_ws {c : Char} (hc : pyIsSpace c = true) (s : Str) :
    pyRstrip (s ++ [c]) = pyRstrip s := by
  simp [pyRstrip, List.dropWhile, hc]

/-- Every string is its `rstrip` followed by trailing whitespace. -/
theorem pyRstrip_decomp (s : Str) :
    s = pyRstrip s ++ (s.reverse.takeWhile pyIsSpace).reverse ∧
      ∀ x ∈ (s.reverse.takeWhile pyIsSpace).reverse, pyIsSpace x = true := by
  constructor
  · have h := List.takeWhile_append_dropWhile pyIsSpace s.reverse
    calc s = s.reverse.reverse := (List.reverse_reverse s).symm
    _ = (s.reverse.takeWhile pyIsSpace ++ s.reverse.dropWhile pyIsSpace).reverse := by rw [h]
    _ = _ := by rw [List.reverse_append]; rfl
  · intro x hx
    exact List.mem_takeWhile_imp (List.mem_reverse.mp hx)

/-- The head surviving a `dropWhile` fails the predicate. -/
theorem head?_dropWhile_not {α : Type} (p : α → Bool) :
    ∀ (l : List α) {a : α}, (l.dropWhile p).head? = some a → p a = false := by
  intro l
  induction l with
  | nil => intro a h; simp [List.dropWhile] at h
  | cons x xs ih =>
    intro a h
    simp only [List.dropWhile] at h
    cases hx : p x with
    | true => rw [hx] at h; exact ih h
    | false =>
      rw [hx] at h
      simp only [List.head?_cons, Option.some.injEq] at h
      exact h ▸ hx

/-- `rstrip` is idempotent. -/
theorem pyRstrip_idem (s : Str) : pyRstrip (pyRstrip s) = pyRstrip s := by
  unfold pyRstrip
  rw [List.reverse_reverse]
  cases h : s.reverse.dropWhile pyIsSpace with
  | nil => simp
  | cons a t =>
    have ha : pyIsSpace a = false := head?_dropWhile_not pyIsSpace s.reverse (by rw [h]; rfl)
    simp [List.dropWhile, ha]

/-- A string whose last character is not whitespace is `rstrip`-stable. -/
theorem pyRstrip_stable {s : Str} {c : Char} (h : s.getLast? = some c)
    (hc : pyIsSpace c = false) : pyRstrip s = s := by
  unfold pyRstrip
  have hrev : s.reverse.head? = some c := by
    rw [List.head?_reverse, h]
  cases hs : s.reverse with
  | nil => simp; exact List.reverse_eq_nil_iff.mp hs
  | cons a t =>
    rw [hs] at hrev
    simp only [List.head?_cons, Option.some.injEq] at hrev
    subst hrev
    simp [List.dropWhile, hc, ← hs]

/-- `rstrip` of the empty string. -/
theorem pyRstrip_nil : pyRstrip [] = [] := rfl

/-- A string is all-whitespace exactly when its `strip` is empty. -/
theorem pyStrip_empty_all_ws {s : Str} (h : pyStrip s = []) :
    ∀ x ∈ s, pyIsSpace x = true := by
  have h1 : ∀ x ∈ pyRstrip s, pyIsSpace x = true := by
    intro x hx
    have := (List.dropWhile_eq_nil_iff).mp h
    -- pyStrip s = dropWhile pyIsSpace (pyRstrip s)
    exact this x hx
  intro x hx
  obtain ⟨hdec, hws⟩ := pyRstrip_decomp s
  rw [hdec] at hx
  rcases List.mem_append.mp hx with hx | hx
  · exact h1 x hx
  · exact hws x hx

/-- Splitting after appending the separator: one more empty chunk. -/
theorem splitOnChar_snoc_sep (sep : Char) :
    ∀ a : Str, splitOnChar sep (a ++ [sep]) = splitOnChar sep a ++ [[]] := by
  intro a
  induction a with
  | nil => simp [splitOnChar]
  | cons x xs ih =>
    by_cases hx : x = sep
    · show splitOnChar sep (x :: (xs ++ [sep])) = _
      simp only [splitOnChar, if_pos hx, ih]
      simp [splitOnChar, hx]
    · rcases hsp : splitOnChar sep xs with _ | ⟨a0, b0⟩
      · exact absurd hsp (splitOnChar_ne_nil sep xs)
      · show splitOnChar sep (x :: (xs ++ [sep])) = _
        simp only [splitOnChar, if_neg hx, ih, hsp]
        simp

/-- Splitting after appending a non-separator: the last chunk is extended. -/
theorem splitOnChar_snoc_ne {sep c : Char} (hc : ¬ c = sep) :
    ∀ a : Str, splitOnChar sep (a ++ [c]) =
      (splitOnChar sep a).dropLast ++ [(splitOnChar sep a).getLastD [] ++ [c]] := by
  intro a
  induction a with
  | nil => simp [splitOnChar, hc]
  | cons x xs ih =>
    by_cases hx : x = sep
    · rcases hsp : splitOnChar sep xs with _ | ⟨a0, b0⟩
      · exact absurd hsp (splitOnChar_ne_nil sep xs)
      · show splitOnChar sep (x :: (xs ++ [c])) = _
        simp only [splitOnChar, if_pos hx, ih, hsp]
        cases b0 with
        | nil => simp
        | cons b1 b2 => simp [List.getLastD_cons]
    · rcases hsp : splitOnChar sep xs with _ | ⟨a0, b0⟩
      · exact absurd hsp (splitOnChar_ne_nil sep xs)
      · show splitOnChar sep (x :: (xs ++ [c])) = _
        simp only [splitOnChar, if_neg hx, ih, hsp]
        cases b0 with
        | nil => simp
        | cons b1 b2 => simp [List.getLastD_cons]

/-- A digit character is not whitespace. -/
theorem digit_not_space {c : Char} (h : c.isDigit = true) : pyIsSpace c = false := by
  by_contra hcon
  have ht : pyIsSpace c = true := by
    cases hval : pyIsSpace c
    · exact absurd hval hcon
    · rfl
  unfold pyIsSpace at ht
  simp only [Bool.or_eq_true, decide_eq_true_eq] at ht
  rcases ht with ((((h1 | h2) | h3) | h4) | h5) | h6 <;>
    subst_vars <;> simp [Char.isDigit] at h

/-- `takeWhile` over an append when the first part already stops the scan. -/
theorem takeWhile_append_of_ne {α : Type} {p : α → Bool} {a : List α}
    (h : a.takeWhile p ≠ a) (b : List α) : (a ++ b).takeWhile p = a.takeWhile p := by
  rw [List.takeWhile_append, if_neg]
  intro hlen
  exact h (List.IsPrefix.eq_of_length (List.takeWhile_prefix p) hlen)

/-- `dropWhile` over an append when the first part does not vanish. -/
theorem dropWhile_append_of_ne {α : Type} {p : α → Bool} {a : List α}
    (h : a.dropWhile p ≠ []) (b : List α) : (a ++ b).dropWhile p = a.dropWhile p ++ b := by
  rw [List.dropWhile_append, if_neg]
  simpa using h

/-- `lineItemNum` ignores a trailing whitespace character. -/
theorem lineItemNum_snoc_ws {c : Char} (hc : pyIsSpace c = true) (l : Str) :
    lineItemNum (l ++ [c]) = lineItemNum l := by
  unfold lineItemNum lineItemDigits
  cases h1 : l.dropWhile pyIsSpace with
  | nil =>
    have hall : ∀ x ∈ l, pyIsSpace x = true := List.dropWhile_eq_nil_iff.mp h1
    have h2 : (l ++ [c]).dropWhile pyIsSpace = [] := by
      apply List.dropWhile_eq_nil_iff.mpr
      intro x hx
      rcases List.mem_append.mp hx with hx | hx
      · exact hall x hx
      · simp at hx; exact hx ▸ hc
    simp [h1, h2]
  | cons a t =>
    have h2 : (l ++ [c]).dropWhile pyIsSpace = (a :: t) ++ [c] := by
      rw [dropWhile_append_of_ne (by rw [h1]; simp) [c], h1]
    simp only [h1, h2]
    by_cases hdig : (a :: t).takeWhile Char.isDigit = a :: t
    · -- the whole residue is digits; the appended whitespace is not a digit
      have hc' : Char.isDigit c = false := by
        cases hd : c.isDigit
        · rfl
        · rw [digit_not_space hd] at hc; exact absurd hc (by simp)
      have h3 : ((a :: t) ++ [c]).takeWhile Char.isDigit = a :: t := by
        rw [List.takeWhile_append, if_pos]
        · simp [List.takeWhile, hc']
        · rw [hdig]
      rw [h3, hdig]
      -- after the digits: `[c]` on the left, nothing on the right
      have h4 : ((a :: t) ++ [c]).drop (a :: t).length = [c] := by
        simp
      rw [h4]
      have h5 : (a :: t).drop (a :: t).length = [] := by simp
      rw [h5]
      have hcdot : ¬ c = '.' := by
        intro he
        rw [he] at hc
        exact absurd hc (by simp [pyIsSpace])
      simp [hcdot]
    · have h3 : ((a :: t) ++ [c]).takeWhile Char.isDigit = (a :: t).takeWhile Char.isDigit :=
        takeWhile_append_of_ne hdig [c]
      rw [h3]
      -- the digit run is a proper prefix, so the rest starts inside `a :: t`
      have hlt : ((a :: t).takeWhile Char.isDigit).length < (a :: t).length := by
        rcases Nat.lt_or_ge ((a :: t).takeWhile Char.isDigit).length (a :: t).length with h | h
        · exact h
        · exact absurd (List.IsPrefix.eq_of_length_le (List.takeWhile_prefix _) h) hdig
      have h4 : ((a :: t) ++ [c]).drop ((a :: t).takeWhile Char.isDigit).length
          = (a :: t).drop ((a :: t).takeWhile Char.isDigit).length ++ [c] := by
        rw [List.drop_append_of_le_length (Nat.le_of_lt hlt)]
      rw [h4]
      have h5 : (a :: t).drop ((a :: t).takeWhile Char.isDigit).length ≠ [] := by
        intro he
        rw [List.drop_eq_nil_iff] at he
        omega
      rw [List.head?_append]
      cases h6 : ((a :: t).drop ((a :: t).takeWhile Char.isDigit).length).head? with
      | none => exact absurd (List.head?_eq_none_iff.mp h6) h5
      | some d => simp

/-- A line consisting of (possibly empty) leading whitespace followed by a
nonempty digit run and nothing else.  Appending a dot to such a line creates a
numbered item; appending a dot to any other line never does. -/
def wsDigitsOnly (l : Str) : Bool :=
  let m := l.dropWhile pyIsSpace
  !m.isEmpty && m.all Char.isDigit

/-- `lineItemNum` ignores a trailing dot appended to a line that is not
whitespace-plus-digits. -/
theorem lineItemNum_snoc_dot {l : Str} (h : wsDigitsOnly (pyRstrip l) = false) :
    lineItemNum (l ++ ['.']) = lineItemNum l := by
  unfold lineItemNum lineItemDigits
  cases h1 : l.dropWhile pyIsSpace with
  | nil =>
    have hall : ∀ x ∈ l, pyIsSpace x = true := List.dropWhile_eq_nil_iff.mp h1
    have h2 : (l ++ ['.']).dropWhile pyIsSpace = ['.'] := by
      rw [List.dropWhile_append, if_pos (by simp [h1])]
      simp [List.dropWhile, pyIsSpace]
    simp [h1, h2, List.takeWhile, Char.isDigit]
  | cons a t =>
    have h2 : (l ++ ['.']).dropWhile pyIsSpace = (a :: t) ++ ['.'] := by
      rw [dropWhile_append_of_ne (by rw [h1]; simp) ['.'], h1]
    simp only [h1, h2]
    by_cases hdig : (a :: t).takeWhile Char.isDigit = a :: t
    · -- then `l` is whitespace plus digits, contradicting `h`
      exfalso
      have halldig : ∀ x ∈ a :: t, Char.isDigit x = true := by
        intro x hx
        exact List.mem_takeWhile_imp (hdig ▸ hx)
      have hsplit : l = l.takeWhile pyIsSpace ++ (a :: t) := by
        rw [← h1, List.takeWhile_append_dropWhile]
      have hlast : l.getLast? = (a :: t).getLast? := by
        rw [hsplit, List.getLast?_append_of_ne_nil _ (List.cons_ne_nil a t)]
      have hlastmem : (a :: t).getLast (List.cons_ne_nil a t) ∈ a :: t :=
        List.getLast_mem _
      have hlastval : l.getLast? = some ((a :: t).getLast (List.cons_ne_nil a t)) := by
        rw [hlast, List.getLast?_eq_getLast _ (List.cons_ne_nil a t)]
      have hstable : pyRstrip l = l :=
        pyRstrip_stable hlastval (digit_not_space (halldig _ hlastmem))
      rw [hstable] at h
      unfold wsDigitsOnly at h
      rw [h1] at h
      simp only [List.isEmpty_cons, Bool.not_false, Bool.true_and] at h
      have hall : (a :: t).all Char.isDigit = true :=
        List.all_eq_true.mpr (fun x hx => halldig x hx)
      rw [hall] at h
      exact absurd h (by simp)
    · have h3 : ((a :: t) ++ ['.']).takeWhile Char.isDigit = (a :: t).takeWhile Char.isDigit :=
        takeWhile_append_of_ne hdig ['.']
      rw [h3]
      have hlt : ((a :: t).takeWhile Char.isDigit).length < (a :: t).length := by
        rcases Nat.lt_or_ge ((a :: t).takeWhile Char.isDigit).length (a :: t).length with hg | hg
        · exact hg
        · exact absurd (List.IsPrefix.eq_of_length_le (List.takeWhile_prefix _) hg) hdig
      have h4 : ((a :: t) ++ ['.']).drop ((a :: t).takeWhile Char.isDigit).length
          = (a :: t).drop ((a :: t).takeWhile Char.isDigit).length ++ ['.'] := by
        rw [List.drop_append_of_le_length (Nat.le_of_lt hlt)]
      rw [h4]
      have h5 : (a :: t).drop ((a :: t).takeWhile Char.isDigit).length ≠ [] := by
        intro he
        rw [List.drop_eq_nil_iff] at he
        omega
      rw [List.head?_append]
      cases h6 : ((a :: t).drop ((a :: t).takeWhile Char.isDigit).length).head? with
      | none => exact absurd (List.head?_eq_none_iff.mp h6) h5
      | some d => simp

/-- `lineItemNum []` is `none`. -/
theorem lineItemNum_nil : lineItemNum [] = none := rfl

/-- `itemNums` ignores a trailing newline. -/
theorem itemNums_snoc_nl (a : Str) : itemNums (a ++ ['\n']) = itemNums a := by
  unfold itemNums
  rw [splitOnChar_snoc_sep, List.filterMap_append]
  simp [lineItemNum_nil]

/-- Rebuilding a nonempty list from `dropLast` and `getLastD`. -/
theorem dropLast_append_getLastD {α : Type} (x : α) (l : List α) (d : α) :
    (x :: l).dropLast ++ [(x :: l).getLastD d] = x :: l := by
  have h1 : (x :: l).getLast? = some ((x :: l).getLast (List.cons_ne_nil x l)) :=
    List.getLast?_eq_getLast _ _
  have h2 : (x :: l).getLastD d = (x :: l).getLast (List.cons_ne_nil x l) := by
    rw [List.getLastD_eq_getLast?, h1]
    rfl
  rw [h2]
  exact List.dropLast_append_getLast (List.cons_ne_nil x l)

/-- `itemNums` ignores a trailing whitespace character. -/
theorem itemNums_snoc_ws {c : Char} (hc : pyIsSpace c = true) (a : Str) :
    itemNums (a ++ [c]) = itemNums a := by
  by_cases hnl : c = '\n'
  · subst hnl; exact itemNums_snoc_nl a
  · unfold itemNums
    rw [splitOnChar_snoc_ne hnl]
    rcases hsp : splitOnChar '\n' a with _ | ⟨s0, srest⟩
    · exact absurd hsp (splitOnChar_ne_nil '\n' a)
    · rw [List.filterMap_append]
      have hlast : lineItemNum ((s0 :: srest).getLastD [] ++ [c]) =
          lineItemNum ((s0 :: srest).getLastD []) :=
        lineItemNum_snoc_ws hc _
      have hre : List.filterMap lineItemNum [(s0 :: srest).getLastD [] ++ [c]] =
          List.filterMap lineItemNum [(s0 :: srest).getLastD []] := by
        simp only [List.filterMap_cons, hlast]
      rw [hre, ← List.filterMap_append, dropLast_append_getLastD]

/-- `itemNums` ignores any trailing whitespace string. -/
theorem itemNums_append_ws :
    ∀ (w : Str), (∀ x ∈ w, pyIsSpace x = true) → ∀ a, itemNums (a ++ w) = itemNums a := by
  intro w
  induction w with
  | nil => intro _ a; simp
  | cons x w' ih =>
    intro hw a
    have h1 : a ++ x :: w' = (a ++ [x]) ++ w' := by simp
    rw [h1, ih (fun y hy => hw y (List.mem_cons_of_mem x hy)) (a ++ [x]),
      itemNums_snoc_ws (hw x (List.mem_cons_self x w')) a]

/-- `itemNums` is invariant under `rstrip`. -/
theorem itemNums_pyRstrip (s : Str) : itemNums (pyRstrip s) = itemNums s := by
  obtain ⟨hdec, hws⟩ := pyRstrip_decomp s
  conv_rhs => rw [hdec]
  rw [itemNums_append_ws _ hws]

/-- `itemNums` of a join of newline-free lines. -/
theorem itemNums_joinLines {ls : List Str} (h : ∀ l ∈ ls, '\n' ∉ l) :
    itemNums (joinLines ls) = ls.filterMap lineItemNum := by
  cases ls with
  | nil => rfl
  | cons l rest =>
    unfold itemNums
    rw [splitOnChar_joinLines (List.cons_ne_nil l rest) h]

/-- `itemNums` after appending a dot, when the last line is not
whitespace-plus-digits. -/
theorem itemNums_snoc_dot {s : Str}
    (h : wsDigitsOnly (pyRstrip ((splitOnChar '\n' s).getLastD [])) = false) :
    itemNums (s ++ ['.']) = itemNums s := by
  unfold itemNums
  rw [splitOnChar_snoc_ne (by decide : ¬ '.' = '\n')]
  rcases hsp : splitOnChar '\n' s with _ | ⟨s0, srest⟩
  · exact absurd hsp (splitOnChar_ne_nil '\n' s)
  · rw [List.filterMap_append]
    have hlast : lineItemNum ((s0 :: srest).getLastD [] ++ ['.']) =
        lineItemNum ((s0 :: srest).getLastD []) := by
      apply lineItemNum_snoc_dot
      rw [hsp] at h
      exact h
    have hre : List.filterMap lineItemNum [(s0 :: srest).getLastD [] ++ ['.']] =
        List.filterMap lineItemNum [(s0 :: srest).getLastD []] := by
      simp only [List.filterMap_cons, hlast]
    rw [hre, ← List.filterMap_append, dropLast_append_getLastD]

/-- `lineItemNum` ignores any trailing whitespace string. -/
theorem lineItemNum_append_ws :
    ∀ (w : Str), (∀ x ∈ w, pyIsSpace x = true) → ∀ l,
      lineItemNum (l ++ w) = lineItemNum l := by
  intro w
  induction w with
  | nil => intro _ l; simp
  | cons x w' ih =>
    intro hw l
    have h1 : l ++ x :: w' = (l ++ [x]) ++ w' := by simp
    rw [h1, ih (fun y hy => hw y (List.mem_cons_of_mem x hy)) (l ++ [x]),
      lineItemNum_snoc_ws (hw x (List.mem_cons_self x w')) l]

/-- `lineItemNum` is invariant under `rstrip`. -/
theorem lineItemNum_pyRstrip (l : Str) : lineItemNum (pyRstrip l) = lineItemNum l := by
  obtain ⟨hdec, hws⟩ := pyRstrip_decomp l
  conv_rhs => rw [hdec]
  rw [lineItemNum_append_ws _ hws]

/-- Appending trailing whitespace only changes lines up to `rstrip`. -/
theorem mem_lines_append_ws :
    ∀ (w : Str), (∀ x ∈ w, pyIsSpace x = true) → ∀ (a l : Str),
      l ∈ splitOnChar '\n' a →
      ∃ l0 ∈ splitOnChar '\n' (a ++ w), pyRstrip l = pyRstrip l0 := by
  intro w
  induction w with
  | nil =>
    intro _ a l hl
    exact ⟨l, by simpa using hl, rfl⟩
  | cons x w' ih =>
    intro hw a l hl
    have hx := hw x (List.mem_cons_self x w')
    have step : ∃ l1 ∈ splitOnChar '\n' (a ++ [x]), pyRstrip l = pyRstrip l1 := by
      by_cases hnl : x = '\n'
      · subst hnl
        rw [splitOnChar_snoc_sep]
        exact ⟨l, List.mem_append_left _ hl, rfl⟩
      · rw [splitOnChar_snoc_ne hnl]
        rcases hsp : splitOnChar '\n' a with _ | ⟨s0, srest⟩
        · exact absurd hsp (splitOnChar_ne_nil '\n' a)
        · rw [hsp] at hl
          rw [← dropLast_append_getLastD s0 srest []] at hl
          rcases List.mem_append.mp hl with hmem | hmem
          · exact ⟨l, List.mem_append_left _ hmem, rfl⟩
          · have hmeq : l = (s0 :: srest).getLastD [] := by simpa using hmem
            exact ⟨(s0 :: srest).getLastD [] ++ [x],
              List.mem_append_right _ (by simp),
              by rw [hmeq, pyRstrip_snoc_ws hx]⟩
    obtain ⟨l1, hl1, he1⟩ := step
    obtain ⟨l0, hl0, he0⟩ :=
      ih (fun y hy => hw y (List.mem_cons_of_mem x hy)) (a ++ [x]) l1 hl1
    refine ⟨l0, ?_, he1.trans he0⟩
    rw [List.append_assoc] at hl0
    simpa using hl0

/-- Every line of `rstrip s` agrees, up to `rstrip`, with some line of `s`. -/
theorem mem_lines_pyRstrip {s l : Str} (hl : l ∈ splitOnChar '\n' (pyRstrip s)) :
    ∃ l0 ∈ splitOnChar '\n' s, pyRstrip l = pyRstrip l0 := by
  obtain ⟨hdec, hws⟩ := pyRstrip_decomp s
  obtain ⟨l0, hl0, he⟩ := mem_lines_append_ws _ hws (pyRstrip s) l hl
  rw [← hdec] at hl0
  exact ⟨l0, hl0, he⟩

/-- The scan that stops at the first item numbered above the target keeps
exactly the item numbers at or below the target, in order. -/
theorem filterMap_takeWhile_keep (t : Nat) :
    ∀ L : List Str, (L.takeWhile (fun l => keepLine l t)).filterMap lineItemNum
      = (L.filterMap lineItemNum).takeWhile (fun n => decide (n ≤ t)) := by
  intro L
  induction L with
  | nil => rfl
  | cons l L ih =>
    cases h : lineItemNum l with
    | none =>
      have hk : keepLine l t = true := by simp [keepLine, h]
      simp [List.takeWhile_cons, hk, List.filterMap_cons, h, ih]
    | some n =>
      by_cases hn : n ≤ t
      · have hk : keepLine l t = true := by simp [keepLine, h, hn]
        simp [List.takeWhile_cons, hk, List.filterMap_cons, h, ih, hn]
      · have hk : keepLine l t = false := by simp [keepLine, h, hn]
        simp [List.takeWhile_cons, hk, List.filterMap_cons, h, hn]

/-- `listMax` of a list bounded by `t` is bounded by `t`. -/
theorem listMax_le {t : Nat} :
    ∀ {ns : List Nat}, (∀ x ∈ ns, x ≤ t) → listMax ns ≤ t := by
  intro ns
  induction ns with
  | nil => intro _; simp [listMax]
  | cons n ns ih =>
    intro h
    simp only [listMax, max_le_iff]
    exact ⟨h n (List.mem_cons_self n ns), ih (fun x hx => h x (List.mem_cons_of_mem n hx))⟩

/-- `listMax` of an ascending run `[1, ..., k]` given explicitly. -/
theorem listMax_mem_le {ns : List Nat} {x : Nat} (hx : x ∈ ns) : x ≤ listMax ns := by
  induction ns with
  | nil => simp at hx
  | cons n ns ih =>
    rcases List.mem_cons.mp hx with h | h
    · simp [listMax, h]
    · simp only [listMax]
      exact le_max_of_le_right (ih h)

/-- `maxItemNum` from `itemNums`. -/
theorem maxItemNum_eq (text : Str) :
    maxItemNum text = match itemNums text with
      | [] => none
      | n :: ns => some (listMax (n :: ns)) := rfl

/-- A text whose item numbers are all at or below `t` has `getD`-max at or
below `t`. -/
theorem maxItemNum_getD_le {text : Str} {t : Nat}
    (h : ∀ x ∈ itemNums text, x ≤ t) : (maxItemNum text).getD 0 ≤ t := by
  rw [maxItemNum_eq]
  cases hi : itemNums text with
  | nil => simp
  | cons n ns =>
    simp only [Option.getD_some]
    exact listMax_le (fun x hx => h x (hi ▸ hx))

/-- The first scan of `_force_truncate_top_n` equals the take-until-overflow
scan: the "stop on a non-numbered line after exceeding the target" branch is
unreachable, because any number above the target already stopped the scan. -/
theorem ftLoop_eq_takeWhile (t : Nat) :
    ∀ (ls : List Str) (lastF : Option Nat), (∀ m, lastF = some m → m ≤ t) →
      ftLoop t ls lastF = ls.takeWhile (fun l => keepLine l t) := by
  intro ls
  induction ls with
  | nil => intro lastF _; rfl
  | cons l ls ih =>
    intro lastF hinv
    simp only [ftLoop]
    cases h : lineItemNum l with
    | some n =>
      by_cases hn : n > t
      · have hk : keepLine l t = false := by
          simp only [keepLine, h]
          simp
          omega
        simp [hn, List.takeWhile_cons, hk]
      · have hk : keepLine l t = true := by
          simp only [keepLine, h]
          simp
          omega
        simp only [if_neg hn, List.takeWhile_cons, hk, if_true]
        rw [ih (some n) (by intro m hm; injection hm with hmn; omega)]
    | none =>
      have hk : keepLine l t = true := by simp [keepLine, h]
      cases lastF with
      | none =>
        simp only [List.takeWhile_cons, hk, if_true]
        rw [ih none (by intro m hm; cases hm)]
      | some m =>
        have hm := hinv m rfl
        simp only [if_pos hm, List.takeWhile_cons, hk, if_true]
        rw [ih (some m) (by intro m2 hm2; injection hm2 with he; omega)]

/-- Item numbers of the rstripped join of the kept lines are at most the
target (shared by the dead-branch analyses of both truncation functions). -/
theorem itemNums_trunc_le {text : Str} (t : Nat) :
    ∀ x ∈ itemNums (pyRstrip (joinLines
        ((splitOnChar '\n' text).takeWhile (fun l => keepLine l t)))), x ≤ t := by
  intro x hx
  have hL : ∀ l ∈ splitOnChar '\n' text, '\n' ∉ l := fun l hl => mem_splitOnChar_not_mem hl
  have hkeptL : ∀ l ∈ (splitOnChar '\n' text).takeWhile (fun l => keepLine l t), '\n' ∉ l :=
    fun l hl => hL l ((List.takeWhile_prefix _).sublist.subset hl)
  rw [itemNums_pyRstrip, itemNums_joinLines hkeptL, filterMap_takeWhile_keep] at hx
  have := List.mem_takeWhile_imp hx
  simpa using this

/-- Membership in a `takeWhile` certifies the predicate (explicit-predicate
variant, stated to guide unification). -/
theorem mem_takeWhile_pred {α : Type} (p : α → Bool) :
    ∀ {l : List α} {x : α}, x ∈ l.takeWhile p → p x = true := by
  intro l
  induction l with
  | nil => intro x hx; simp [List.takeWhile] at hx
  | cons a as ih =>
    intro x hx
    rw [List.takeWhile_cons] at hx
    by_cases ha : p a
    · rw [if_pos ha] at hx
      rcases List.mem_cons.mp hx with h | h
      · exact h ▸ ha
      · exact ih h
    · rw [if_neg ha] at hx
      simp at hx

/-- Every line of the rstripped join of kept lines carries an item number at
most the target. -/
theorem lines_trunc_le {text : Str} (t : Nat) :
    ∀ l ∈ splitOnChar '\n' (pyRstrip (joinLines
        ((splitOnChar '\n' text).takeWhile (fun l => keepLine l t)))),
      ∀ n, lineItemNum l = some n → n ≤ t := by
  intro l hl n hn
  have hL : ∀ l ∈ splitOnChar '\n' text, '\n' ∉ l := fun l hl => mem_splitOnChar_not_mem hl
  set kept := (splitOnChar '\n' text).takeWhile (fun l => keepLine l t) with hkept
  have hkeptL : ∀ l ∈ kept, '\n' ∉ l :=
    fun l hl => hL l ((List.takeWhile_prefix _).sublist.subset hl)
  obtain ⟨l0, hl0, he⟩ := mem_lines_pyRstrip hl
  cases hk : kept with
  | nil =>
    rw [hk] at hl0
    have : l0 = [] := by simpa [joinLines, splitOnChar] using hl0
    subst this
    rw [← lineItemNum_pyRstrip l, he, pyRstrip_nil, lineItemNum_nil] at hn
    cases hn
  | cons k0 krest =>
    rw [hk, splitOnChar_joinLines (List.cons_ne_nil k0 krest)
      (fun l hl => hkeptL l (by rw [hk]; exact hl))] at hl0
    have hl0k : l0 ∈ (splitOnChar '\n' text).takeWhile (fun l => keepLine l t) := by
      rw [← hkept, hk]; exact hl0
    have hkeep : keepLine l0 t = true :=
      mem_takeWhile_pred (fun l => keepLine l t) hl0k
    have heq : lineItemNum l = lineItemNum l0 := by
      rw [← lineItemNum_pyRstrip l, he, lineItemNum_pyRstrip l0]
    rw [heq] at hn
    rw [keepLine, hn] at hkeep
    simpa using hkeep

/-- The verification stage is the identity when the items are already in
bounds. -/
theorem ftVerify_id {truncated1 : Str} (lines : List Str) {target : Nat}
    (h : (maxItemNum truncated1).getD 0 ≤ target) :
    ftVerify truncated1 lines target = truncated1 := by
  unfold ftVerify
  rw [if_neg (by omega)]

/-- The nuclear stage is the identity when the items are already in bounds. -/
theorem ftNuclear_id {truncated2 : Str} (lines : List Str) {target : Nat}
    (h : (maxItemNum truncated2).getD 0 ≤ target) :
    ftNuclear truncated2 lines target = truncated2 := by
  unfold ftNuclear
  rw [if_neg (by omega)]

/-- On a non-degenerate text, `_force_truncate_top_n` is exactly the rstripped
join of the lines kept by the take-until-overflow scan: both repair stages are
dead code, because the first scan already leaves no item above the target. -/
theorem force_truncate_top_n_eq {text : Str} {target : Nat}
    (hne : ¬ (text = [] ∨ pyStrip text = [])) :
    force_truncate_top_n text target =
      pyRstrip (joinLines ((splitOnChar '\n' text).takeWhile (fun l => keepLine l target))) := by
  unfold force_truncate_top_n
  rw [if_neg hne]
  show ftNuclear
      (ftVerify (pyRstrip (joinLines (ftLoop target (splitOnChar '\n' text) none)))
        (splitOnChar '\n' text) target)
      (splitOnChar '\n' text) target = _
  rw [ftLoop_eq_takeWhile target _ none (fun m hm => by cases hm)]
  have hle : (maxItemNum (pyRstrip (joinLines ((splitOnChar '\n' text).takeWhile
      (fun l => keepLine l target))))).getD 0 ≤ target :=
    maxItemNum_getD_le (@itemNums_trunc_le text target)
  rw [ftVerify_id _ hle, ftNuclear_id _ hle]

/-- C10: every top-level numbered item surviving `_force_truncate_top_n` is
numbered at most the target: no line of the result starts (after optional
leading whitespace) with digits above `target` followed by a dot. -/
theorem c10_force_truncate_items_bounded (text : Str) (target : Nat)
    (h : 1 ≤ target) :
    ∀ l ∈ splitOnChar '\n' (force_truncate_top_n text target),
      ∀ n, lineItemNum l = some n → n ≤ target := by
  by_cases hne : text = [] ∨ pyStrip text = []
  · unfold force_truncate_top_n
    rw [if_pos hne]
    intro l hl n hn
    have hws : ∀ x ∈ l, pyIsSpace x = true := by
      intro x hx
      rcases hne with he | he
      · subst he
        simp [splitOnChar] at hl
        subst hl
        simp at hx
      · exact pyStrip_empty_all_ws he x (mem_of_mem_splitOnChar hl hx)
    have hdl : l.dropWhile pyIsSpace = [] := List.dropWhile_eq_nil_iff.mpr hws
    simp [lineItemNum, lineItemDigits, hdl] at hn
  · rw [force_truncate_top_n_eq hne]
    exact lines_trunc_le target

/-- Witness for C10: evaluated at a concrete three-item list with target 2. -/
theorem c10_witness :
    1 ≤ 2 ∧ ∀ l ∈ splitOnChar '\n' (force_truncate_top_n ("1. a\n2. b\n3. c".data) 2),
      ∀ n, lineItemNum l = some n → n ≤ 2 :=
  ⟨by decide, c10_force_truncate_items_bounded ("1. a\n2. b\n3. c".data) 2 (by decide)⟩

/-- The classifier's "final word" length: the last whitespace-separated word of
the stripped text, with trailing punctuation removed (mirrors lines 586-589). -/
def finalWordLen (text : Str) : Nat :=
  match (pySplitWs (pyRstrip text)).getLast? with
  | some w => (pyRstripChars w wordPunctChars).length
  | none => 0

/-- Modelled from the spec: "unmatched structural delimiters" (rule 4 of the
classifier specification) — the stripped text ends in a structural delimiter
character, contains an odd number of markdown `**` markers, or its last line
is a table row missing its closing pipe.  This predicate formalises the
hypothesis vocabulary of the spec's classifier laws; it is not a function of
the source. -/
def spec_unmatched_delims (text : Str) : Bool :=
  let tail := pyRstrip text
  let last_line := (splitOnChar '\n' tail).getLastD []
  endsWithAnyChar tail [',', ':', ';', '(', '[', Char.ofNat 123, '|', '*'] ||
  decide (countSubstr text ['*', '*'] % 2 = 1) ||
  (strContains last_line ['|'] && !(strEndsWith last_line ['|']))

/-- On a nonempty text with no sentinel, no satisfied exact-count exit, and no
terminal sentence punctuation, the classifier reports truncation: every return
statement in that region of the source is `return True`. -/
theorem looks_truncated_of_no_terminal {text msg : Str} (htne : text ≠ [])
    (hexit : topn_exact_exit msg text = false)
    (hsent : strContains (pyRstrip text) sentinel = false)
    (hend : endsWithAnyChar (pyRstrip text) ['.', '!', '?'] = false) :
    looks_truncated text msg = true := by
  unfold looks_truncated
  rw [if_neg htne, if_neg (by simp [hexit])]
  simp [hsent, hend]

/-- C3 (amended): for all text whose stripped form ends in `.`/`!`/`?`, whose
final word (after stripping trailing punctuation) has at least 4 characters,
which contains no unmatched structural delimiters, and whose stripped form has
at most 500 characters, the classifier returns false for every originating
request.  (The original claim, without the length bound, fails: see the
counterexample.) -/
theorem c3_short_complete_not_truncated (text msg : Str)
    (hend : endsWithAnyChar (pyRstrip text) ['.', '!', '?'] = true)
    (hword : 4 ≤ finalWordLen text)
    (hdelim : spec_unmatched_delims text = false)
    (hlen : (pyRstrip text).length ≤ 500) :
    looks_truncated text msg = false := by
  have htne : text ≠ [] := by
    intro he
    rw [he] at hend
    simp [pyRstrip, endsWithAnyChar] at hend
  unfold looks_truncated
  rw [if_neg htne]
  by_cases hexit : topn_exact_exit msg text = true
  · rw [if_pos hexit]
  · rw [if_neg hexit]
    by_cases hsent : strContains (pyRstrip text) sentinel = true
    · simp [hsent]
    · have hsent' : strContains (pyRstrip text) sentinel = false := by
        cases h : strContains (pyRstrip text) sentinel
        · rfl
        · exact absurd h hsent
      have hnotlong : ¬ (pyRstrip text).length > 500 := by omega
      cases hw : (pySplitWs (pyRstrip text)).getLast? with
      | none => simp [hsent', hend, hw, hnotlong]
      | some w =>
        have hwlen : ¬ (pyRstripChars w wordPunctChars).length < 4 := by
          unfold finalWordLen at hword
          rw [hw] at hword
          simp at hword
          omega
        simp [hsent', hend, hw, hwlen, hnotlong]

set_option maxRecDepth 8000 in
/-- C3 counterexample: a 505-character text ending in `.` whose final word has
8 letters and which has no unmatched delimiters is still classified as
truncated (the `>500 chars` branch fires: the text ends with `.`, so the
"last sentence" after the final dot is empty and shorter than 20 characters).
This refutes the claim as stated, which has no length bound. -/
theorem c3_counterexample :
    looks_truncated (List.replicate 495 'a' ++ " abcdefgh.".data) [] = true ∧
    endsWithAnyChar (pyRstrip (List.replicate 495 'a' ++ " abcdefgh.".data))
      ['.', '!', '?'] = true ∧
    4 ≤ finalWordLen (List.replicate 495 'a' ++ " abcdefgh.".data) ∧
    spec_unmatched_delims (List.replicate 495 'a' ++ " abcdefgh.".data) = false := by
  decide

/-- Witness for C3 (amended) at the concrete text `This is done.`. -/
theorem c3_witness :
    endsWithAnyChar (pyRstrip ("This is done.".data)) ['.', '!', '?'] = true ∧
    4 ≤ finalWordLen ("This is done.".data) ∧
    spec_unmatched_delims ("This is done.".data) = false ∧
    (pyRstrip ("This is done.".data)).length ≤ 500 ∧
    looks_truncated ("This is done.".data) [] = false :=
  ⟨by decide, by decide, by decide, by decide,
    c3_short_complete_not_truncated ("This is done.".data) [] (by decide) (by decide)
      (by decide) (by decide)⟩

/-- C4 counterexample: for the request `top 2`, the text `1. a\n2. b:` ends in
the structural delimiter `:` yet the classifier returns false (the exact-count
early exit of lines 561-575 accepts `:` as a proper ending).  This refutes the
claim as stated, which quantifies over every originating request. -/
theorem c4_counterexample :
    endsWithAnyChar (pyRstrip ("1. a\n2. b:".data)) [':'] = true ∧
    looks_truncated ("1. a\n2. b:".data) ("top 2".data) = false := by
  decide

/-- C4 (amended): for all text (not containing the `[END]` sentinel) whose
stripped form ends in `,`, `:`, a markdown star, or a table pipe, the
classifier returns true for every originating request that does not match the
`top N` pattern. -/
theorem c4_structural_ending_truncated (text msg : Str)
    (hmsg : searchTopN (asciiLowerStr msg) = none)
    (hsent : strContains (pyRstrip text) sentinel = false)
    (hend : endsWithAnyChar (pyRstrip text) [',', ':', '*', '|'] = true) :
    looks_truncated text msg = true := by
  have htne : text ≠ [] := by
    intro he
    rw [he] at hend
    simp [pyRstrip, endsWithAnyChar] at hend
  have hexit : topn_exact_exit msg text = false := by
    unfold topn_exact_exit
    by_cases hm : msg ≠ []
    · rw [if_pos hm, hmsg]
    · rw [if_neg hm]
  have hnt : endsWithAnyChar (pyRstrip text) ['.', '!', '?'] = false := by
    unfold endsWithAnyChar at hend ⊢
    cases hl : (pyRstrip text).getLast? with
    | none => rfl
    | some c =>
      rw [hl] at hend
      have hmem : c ∈ [',', ':', '*', '|'] := by simpa using hend
      fin_cases hmem <;> decide
  exact looks_truncated_of_no_terminal htne hexit hsent hnt

/-- Witness for C4 (amended) at the concrete text `abc:`. -/
theorem c4_witness :
    searchTopN (asciiLowerStr []) = none ∧
    strContains (pyRstrip ("abc:".data)) sentinel = false ∧
    endsWithAnyChar (pyRstrip ("abc:".data)) [',', ':', '*', '|'] = true ∧
    looks_truncated ("abc:".data) [] = true :=
  ⟨by decide, by decide, by decide,
    c4_structural_ending_truncated ("abc:".data) [] (by decide) (by decide) (by decide)⟩

/-- C5 counterexample: the empty text satisfies all three hypotheses of the
claim (no sentinel, exact-count rule not satisfied, no terminal punctuation)
yet the classifier returns false (`if not text: return False`). -/
theorem c5_counterexample :
    strContains (pyRstrip ([] : Str)) sentinel = false ∧
    topn_exact_exit [] [] = false ∧
    endsWithAnyChar (pyRstrip ([] : Str)) ['.', '!', '?'] = false ∧
    looks_truncated [] [] = false := by
  decide

/-- C5 (amended): for every nonempty text that contains no end-of-output
sentinel, does not satisfy the exact-count early exit, and whose stripped form
ends with no terminal sentence punctuation, the classifier returns true. -/
theorem c5_no_terminal_truncated (text msg : Str) (htne : text ≠ [])
    (hsent : strContains (pyRstrip text) sentinel = false)
    (hexit : topn_exact_exit msg text = false)
    (hend : endsWithAnyChar (pyRstrip text) ['.', '!', '?'] = false) :
    looks_truncated text msg = true :=
  looks_truncated_of_no_terminal htne hexit hsent hend

/-- Witness for C5 (amended) at the concrete text `hello world` with request
`top 3`. -/
theorem c5_witness :
    ("hello world".data : Str) ≠ [] ∧
    strContains (pyRstrip ("hello world".data)) sentinel = false ∧
    topn_exact_exit ("top 3".data) ("hello world".data) = false ∧
    endsWithAnyChar (pyRstrip ("hello world".data)) ['.', '!', '?'] = false ∧
    looks_truncated ("hello world".data) ("top 3".data) = true :=
  ⟨by decide, by decide, by decide, by decide,
    c5_no_terminal_truncated ("hello world".data) ("top 3".data) (by decide) (by decide)
      (by decide) (by decide)⟩

/-- C6: idempotence on complete input: when the classifier reports the text
complete, `_ensure_complete` returns it unchanged and consumes 0 loop
iterations, so the continuation generator is never invoked. -/
theorem c6_ensure_complete_idempotent (gen : Nat → GenRes) (useGrok : Bool)
    (msg text : Str) (max_iters : Nat)
    (h : looks_truncated text msg = false) :
    ensure_complete gen useGrok msg text max_iters = (text, 0) := by
  unfold ensure_complete
  cases max_iters with
  | zero => rfl
  | succ n =>
    unfold ecIter
    rw [h]
    simp

/-- Witness for C6 at the concrete complete text `This is done.`. -/
theorem c6_witness :
    looks_truncated ("This is done.".data) [] = false ∧
    ensure_complete (fun _ => GenRes.ok []) true [] ("This is done.".data) 3 =
      ("This is done.".data, 0) :=
  ⟨by decide,
    c6_ensure_complete_idempotent (fun _ => GenRes.ok []) true [] ("This is done.".data) 3
      (by decide)⟩

/-- C7: the completeness-repair loop never raises: the embedding is a total
function for every oracle behaviour, and when every generator call raises a
connection error while the text still looks truncated, it returns the best
text so far with the soft "may be incomplete" note appended, after one
iteration. -/
theorem c7_ensure_complete_never_raises (gen : Nat → GenRes) (msg text : Str)
    (max_iters : Nat)
    (hgen : ∀ k, ∃ e, gen k = GenRes.exn e ∧
      (strContains e connRefusedMsg || strContains e failReachMsg) = true)
    (htr : looks_truncated text msg = true)
    (hmi : 1 ≤ max_iters) :
    ensure_complete gen true msg text max_iters = (text ++ noteGrok, 1) := by
  unfold ensure_complete
  cases max_iters with
  | zero => omega
  | succ n =>
    unfold ecIter
    obtain ⟨e0, he0, hc0⟩ := hgen 0
    obtain ⟨e1, he1, hc1⟩ := hgen 1
    simp [he0, he1, htr, hc1]

/-- Witness for C7 at the concrete truncated text `abc,` with an oracle that
always raises a connection error. -/
theorem c7_witness :
    looks_truncated ("abc,".data) [] = true ∧
    ensure_complete (fun _ => GenRes.exn connRefusedMsg) true [] ("abc,".data) 3 =
      ("abc,".data ++ noteGrok, 1) :=
  ⟨by decide,
    c7_ensure_complete_never_raises (fun _ => GenRes.exn connRefusedMsg) [] ("abc,".data) 3
      (fun k => ⟨connRefusedMsg, rfl, by decide⟩) (by decide) (by decide)⟩

/-- The agent loop records no insight exactly when there is no agent or the
deadline already held at the first check. -/
theorem agentLoop_fst_nil_iff (expired : Nat → Bool) (outcomes : Nat → Str × Bool)
    (n i : Nat) :
    (agentLoop expired outcomes n i).1 = [] ↔ (n = 0 ∨ expired i = true) := by
  cases n with
  | zero => simp [agentLoop]
  | succ c =>
    simp only [agentLoop]
    by_cases h : expired i
    · simp [h]
    · simp [h]

/-- When the deadline arrives exactly before the `k+1`-st agent, the loop
records one insight per started agent (positions `i, ..., i+k-1`) and every
recorded agent status is terminal. -/
theorem agentLoop_run_spec (expired : Nat → Bool) (outcomes : Nat → Str × Bool) :
    ∀ (k c i : Nat), k < c → (∀ j, j < k → expired (i + j) = false) →
      expired (i + k) = true →
      (agentLoop expired outcomes c i).1.map Prod.fst = List.range' i k ∧
      ∀ pr ∈ (agentLoop expired outcomes c i).2, pr.2 = "completed" ∨ pr.2 = "failed" := by
  intro k
  induction k with
  | zero =>
    intro c i hc h0 hk
    cases c with
    | zero => omega
    | succ c' =>
      have hei : expired i = true := by simpa using hk
      simp [agentLoop, hei]
  | succ k' ih =>
    intro c i hc h0 hk
    cases c with
    | zero => omega
    | succ c' =>
      have hei : expired i = false := by simpa using h0 0 (by omega)
      have hbefore : ∀ j, j < k' → expired (i + 1 + j) = false := by
        intro j hj
        have h := h0 (j + 1) (by omega)
        rwa [show i + (j + 1) = i + 1 + j by omega] at h
      have hat : expired (i + 1 + k') = true := by
        rwa [show i + (k' + 1) = i + 1 + k' by omega] at hk
      have ihh := ih c' (i + 1) (by omega) hbefore hat
      simp only [agentLoop, hei, Bool.false_eq_true, if_false]
      constructor
      · simp only [List.map_cons, ihh.1]
        rw [List.range'_succ]
      · intro pr hpr
        rcases List.mem_cons.mp hpr with h | h
        · rw [h]
          by_cases hs : (outcomes i).2
          · left; simp [hs]
          · right; simp [hs]
        · exact ihh.2 pr h

/-- C1 counterexample: a session with one agent whose single call fails stores
the error text as an insight and proceeds to synthesis: the status never
becomes `failed` without a synthesis attempt, contradicting the claim that an
all-failures session transitions to `failed` with no synthesis attempt. -/
theorem c1_counterexample :
    (run_incubator_session 1 (fun _ => false)
        (fun _ => ("Error: agent failed".data, false)) none id).synth_attempted = true ∧
    (run_incubator_session 1 (fun _ => false)
        (fun _ => ("Error: agent failed".data, false)) none id).insights.length = 1 ∧
    (run_incubator_session 1 (fun _ => false)
        (fun _ => ("Error: agent failed".data, false)) none id).trace.take 3 =
      ["initialized", "running", "synthesizing"] := by
  decide

/-- C1 (amended): the running-to-failed transition with no synthesis attempt
happens exactly when zero insights were recorded, i.e. when no agent analysis
was started; a session whose agent calls all fail but that ran at least one
agent stores the error messages as insights (line 352) and still attempts
synthesis. -/
theorem c1_zero_insight_law (n : Nat) (expired : Nat → Bool)
    (outcomes : Nat → Str × Bool) (synth : Option Str) (complete : Str → Str) :
    ((run_incubator_session n expired outcomes synth complete).synth_attempted = false ↔
      (run_incubator_session n expired outcomes synth complete).insights = []) ∧
    ((run_incubator_session n expired outcomes synth complete).insights = [] →
      (run_incubator_session n expired outcomes synth complete).trace =
        ["initialized", "running", "failed"]) ∧
    ((run_incubator_session n expired outcomes synth complete).insights ≠ [] →
      (run_incubator_session n expired outcomes synth complete).synth_attempted = true ∧
      (run_incubator_session n expired outcomes synth complete).trace.take 3 =
        ["initialized", "running", "synthesizing"]) := by
  simp only [run_incubator_session]
  by_cases h : (agentLoop expired outcomes n 0).1.length = 0
  · have hnil : (agentLoop expired outcomes n 0).1 = [] := List.length_eq_zero.mp h
    simp [h, hnil]
  · have hne : (agentLoop expired outcomes n 0).1 ≠ [] := by
      intro he
      rw [he] at h
      exact h rfl
    cases synth with
    | none => simp [h, hne]
    | some p =>
      by_cases hp : p ≠ [] ∧ (pyStrip p).length > 0
      · simp [h, hne, hp]
      · simp [h, hne, hp]

/-- Witness for C1 (amended): one agent, its call fails, synthesis text
available — the error is stored as an insight and synthesis is attempted. -/
theorem c1_witness :
    (run_incubator_session 1 (fun _ => false) (fun _ => ("Error: x".data, false))
        (some ("plan".data)) id).insights ≠ [] ∧
    (run_incubator_session 1 (fun _ => false) (fun _ => ("Error: x".data, false))
        (some ("plan".data)) id).synth_attempted = true ∧
    (run_incubator_session 1 (fun _ => false) (fun _ => ("Error: x".data, false))
        (some ("plan".data)) id).trace.take 3 = ["initialized", "running", "synthesizing"] :=
  ⟨by decide,
    ((c1_zero_insight_law 1 (fun _ => false) (fun _ => ("Error: x".data, false))
        (some ("plan".data)) id).2.2 (by decide)).1,
    ((c1_zero_insight_law 1 (fun _ => false) (fun _ => ("Error: x".data, false))
        (some ("plan".data)) id).2.2 (by decide)).2⟩

/-- C8: if the deadline is reached after agent `k` starts and before agent
`k+1` starts (with `1 ≤ k` and agent `k+1` existing in the roster), the
session records exactly `k` insights — one per started agent, at roster
positions `0, ..., k-1` — every agent status is terminal (`completed` or
`failed`), and the session moves from `running` to `synthesizing`, never from
`running` to `failed`. -/
theorem c8_roster_law (n : Nat) (expired : Nat → Bool) (outcomes : Nat → Str × Bool)
    (synth : Option Str) (complete : Str → Str) (k : Nat)
    (hk1 : 1 ≤ k) (hkn : k < n)
    (hbefore : ∀ j, j < k → expired j = false) (hat : expired k = true) :
    (run_incubator_session n expired outcomes synth complete).insights.length = k ∧
    (run_incubator_session n expired outcomes synth complete).insights.map Prod.fst =
      List.range' 0 k ∧
    (∀ pr ∈ (run_incubator_session n expired outcomes synth complete).agent_status,
      pr.2 = "completed" ∨ pr.2 = "failed") ∧
    (run_incubator_session n expired outcomes synth complete).trace.take 3 =
      ["initialized", "running", "synthesizing"] := by
  have hspec := agentLoop_run_spec expired outcomes k n 0 hkn
    (fun j hj => by simpa using hbefore j hj) (by simpa using hat)
  have hlen : (agentLoop expired outcomes n 0).1.length = k := by
    have hmap := congrArg List.length hspec.1
    simpa using hmap
  have hne : ¬ (agentLoop expired outcomes n 0).1.length = 0 := by omega
  simp only [run_incubator_session]
  rw [if_neg hne]
  cases synth with
  | none =>
    refine ⟨by simp [hlen], by simp [hspec.1], ?_, by simp⟩
    intro pr hpr
    exact hspec.2 pr (by simpa using hpr)
  | some p =>
    by_cases hp : p ≠ [] ∧ (pyStrip p).length > 0
    · refine ⟨by simp [hp, hlen], by simp [hp, hspec.1], ?_, by simp [hp]⟩
      intro pr hpr
      exact hspec.2 pr (by simpa [hp] using hpr)
    · refine ⟨by simp [hp, hlen], by simp [hp, hspec.1], ?_, by simp [hp]⟩
      intro pr hpr
      exact hspec.2 pr (by simpa [hp] using hpr)

/-- Witness for C8: three agents, deadline reached before the third (`k = 2`),
synthesis succeeds. -/
theorem c8_witness :
    1 ≤ 2 ∧ 2 < 3 ∧
    (run_incubator_session 3 (fun i => decide (i ≥ 2)) (fun _ => ("insight".data, true))
        (some ("plan".data)) id).insights.length = 2 ∧
    (run_incubator_session 3 (fun i => decide (i ≥ 2)) (fun _ => ("insight".data, true))
        (some ("plan".data)) id).trace.take 3 = ["initialized", "running", "synthesizing"] :=
  ⟨by decide, by decide,
    (c8_roster_law 3 (fun i => decide (i ≥ 2)) (fun _ => ("insight".data, true))
      (some ("plan".data)) id 2 (by decide) (by decide)
      (fun j hj => by interval_cases j <;> decide) (by decide)).1,
    (c8_roster_law 3 (fun i => decide (i ≥ 2)) (fun _ => ("insight".data, true))
      (some ("plan".data)) id 2 (by decide) (by decide)
      (fun j hj => by interval_cases j <;> decide) (by decide)).2.2.2⟩

/-- Position of a session status value in the forward phase order
`initialized → running → (wrapping_up) → synthesizing → completed | failed`
(the two terminal statuses share the final position; `wrapping_up` is listed
in the session's documented status set but never assigned by the code). -/
def statusRank (s : String) : Nat :=
  if s = "initialized" then 0
  else if s = "running" then 1
  else if s = "wrapping_up" then 2
  else if s = "synthesizing" then 3
  else 4

/-- C9: over the whole modelled execution of `run_incubator_session`, the
sequence of values assigned to `session.status` is strictly increasing in the
phase order: the status never moves back to an earlier phase. -/
theorem c9_phase_monotone (n : Nat) (expired : Nat → Bool)
    (outcomes : Nat → Str × Bool) (synth : Option Str) (complete : Str → Str) :
    List.Chain' (fun a b => statusRank a < statusRank b)
      (run_incubator_session n expired outcomes synth complete).trace := by
  simp only [run_incubator_session]
  by_cases h : (agentLoop expired outcomes n 0).1.length = 0
  · rw [if_pos h]
    exact (by simp [List.chain'_cons, statusRank] : List.Chain'
      (fun a b => statusRank a < statusRank b) ["initialized", "running", "failed"])
  · rw [if_neg h]
    cases synth with
    | none =>
      exact (by simp [List.chain'_cons, statusRank] : List.Chain'
        (fun a b => statusRank a < statusRank b)
        ["initialized", "running", "synthesizing", "failed"])
    | some p =>
      dsimp only
      by_cases hp : p ≠ [] ∧ (pyStrip p).length > 0
      · rw [if_pos hp]
        exact (by simp [List.chain'_cons, statusRank] : List.Chain'
          (fun a b => statusRank a < statusRank b)
          ["initialized", "running", "synthesizing", "completed"])
      · rw [if_neg hp]
        exact (by simp [List.chain'_cons, statusRank] : List.Chain'
          (fun a b => statusRank a < statusRank b)
          ["initialized", "running", "synthesizing", "failed"])

/-- The `getLastD` of a nonempty list is a member. -/
theorem getLastD_mem {α : Type} (x : α) (l : List α) (d : α) :
    (x :: l).getLastD d ∈ x :: l := by
  rw [List.getLastD_eq_getLast?, List.getLast?_eq_getLast _ (List.cons_ne_nil x l)]
  exact List.getLast_mem _

/-- A string that ends in a proper ending character is `rstrip`-stable. -/
theorem endsProper_pyRstrip_stable {s : Str} (h : endsProper s = true) :
    pyRstrip s = s := by
  unfold endsProper endsWithAnyChar at h
  cases hl : s.getLast? with
  | none => rw [hl] at h; simp at h
  | some c =>
    rw [hl] at h
    have hmem : c ∈ propEndChars := by simpa using h
    have hnws : pyIsSpace c = false := by fin_cases hmem <;> decide
    exact pyRstrip_stable hl hnws

/-- A text with a numbered item is nonempty. -/
theorem ne_nil_of_itemNums_ne_nil {s : Str} (h : itemNums s ≠ []) : s ≠ [] := by
  intro he
  rw [he] at h
  exact h rfl

/-- `maxItemNum` from an explicit `itemNums` value. -/
theorem maxItemNum_of_itemNums {s : Str} {n : Nat} {ns : List Nat}
    (h : itemNums s = n :: ns) : maxItemNum s = some (listMax (n :: ns)) := by
  rw [maxItemNum_eq, h]

/-- The take-until-overflow core of `mclTruncate` under the C2 hypotheses:
its item numbers are exactly `[1, 2, 3, 4, 5]`. -/
theorem mcl_core_items {text : Str}
    (hitems : itemNums text = [1, 2, 3, 4, 5, 6, 7, 8]) :
    itemNums (pyRstrip (joinLines
      ((splitOnChar '\n' text).takeWhile (fun l => keepLine l 5)))) = [1, 2, 3, 4, 5] := by
  have hL : ∀ l ∈ splitOnChar '\n' text, '\n' ∉ l := fun l hl => mem_splitOnChar_not_mem hl
  have hkeptL : ∀ l ∈ (splitOnChar '\n' text).takeWhile (fun l => keepLine l 5), '\n' ∉ l :=
    fun l hl => hL l ((List.takeWhile_prefix _).sublist.subset hl)
  rw [itemNums_pyRstrip, itemNums_joinLines hkeptL, filterMap_takeWhile_keep]
  have htext : (splitOnChar '\n' text).filterMap lineItemNum = [1, 2, 3, 4, 5, 6, 7, 8] :=
    hitems
  rw [htext]
  decide

/-- Safety of the last line of the truncation core: under the C2 no-digit-line
hypothesis, appending a dot cannot create a new numbered item. -/
theorem mcl_core_last_line_safe {text : Str}
    (hsafe : ∀ l ∈ splitOnChar '\n' text, wsDigitsOnly (pyRstrip l) = false)
    (hne : pyRstrip (joinLines
      ((splitOnChar '\n' text).takeWhile (fun l => keepLine l 5))) ≠ []) :
    wsDigitsOnly (pyRstrip ((splitOnChar '\n' (pyRstrip (joinLines
      ((splitOnChar '\n' text).takeWhile (fun l => keepLine l 5))))).getLastD [])) = false := by
  set kept := (splitOnChar '\n' text).takeWhile (fun l => keepLine l 5) with hkept
  set t1 := pyRstrip (joinLines kept) with ht1
  have hkmem : ∀ l ∈ kept, l ∈ splitOnChar '\n' text :=
    fun l hl => (List.takeWhile_prefix _).sublist.subset (by rw [hkept] at hl; exact hl)
  have hkeptL : ∀ l ∈ kept, '\n' ∉ l :=
    fun l hl => mem_splitOnChar_not_mem (hkmem l hl)
  rcases hsp : splitOnChar '\n' t1 with _ | ⟨s0, srest⟩
  · exact absurd hsp (splitOnChar_ne_nil '\n' t1)
  · have hmem : (s0 :: srest).getLastD [] ∈ splitOnChar '\n' t1 := by
      rw [hsp]
      exact getLastD_mem s0 srest []
    rw [ht1] at hmem
    obtain ⟨l0, hl0, he⟩ := mem_lines_pyRstrip hmem
    rw [he]
    cases hk : kept with
    | nil =>
      exfalso
      apply hne
      rw [ht1, hk]
      rfl
    | cons k0 krest =>
      rw [hk, splitOnChar_joinLines (List.cons_ne_nil k0 krest)
        (fun l hl => hkeptL l (by rw [hk]; exact hl))] at hl0
      have hl0' : l0 ∈ kept := by rw [hk]; exact hl0
      exact hsafe l0 (hkmem l0 hl0')

/-- Under the C2 hypotheses, `mclTruncate` yields exactly items 1-5, ends in a
proper ending character, and is `rstrip`-stable. -/
theorem mclTruncate_spec {text : Str}
    (hitems : itemNums text = [1, 2, 3, 4, 5, 6, 7, 8])
    (hsafe : ∀ l ∈ splitOnChar '\n' text, wsDigitsOnly (pyRstrip l) = false) :
    itemNums (mclTruncate text 5) = [1, 2, 3, 4, 5] ∧
    endsProper (mclTruncate text 5) = true ∧
    pyRstrip (mclTruncate text 5) = mclTruncate text 5 := by
  have hcore : itemNums (mclCore text 5) = [1, 2, 3, 4, 5] := mcl_core_items hitems
  have hne1 : mclCore text 5 ≠ [] :=
    ne_nil_of_itemNums_ne_nil (by rw [hcore]; simp)
  have hsafe1 : wsDigitsOnly (pyRstrip ((splitOnChar '\n' (mclCore text 5)).getLastD []))
      = false := mcl_core_last_line_safe hsafe hne1
  have hmax1 : maxItemNum (mclCore text 5) = some 5 := by
    rw [maxItemNum_of_itemNums hcore]
    decide
  have hV : mclVerify (mclCore text 5) (splitOnChar '\n' text) 5 = mclCore text 5 := by
    unfold mclVerify
    rw [hmax1]
    norm_num
  have hRS1 : pyRstrip (mclCore text 5) = mclCore text 5 := pyRstrip_idem _
  by_cases hEP : endsProper (mclCore text 5) = true
  · have hDot : mclDot (mclCore text 5) = mclCore text 5 := by
      unfold mclDot
      rw [if_neg (by simp [hEP])]
    have hFin : mclFinal (mclCore text 5) 5 = mclCore text 5 := by
      unfold mclFinal
      rw [hmax1]
      norm_num
    have hTT : mclTruncate text 5 = mclCore text 5 := by
      unfold mclTruncate
      rw [hV, hRS1, hDot, hFin]
    rw [hTT]
    exact ⟨hcore, hEP, hRS1⟩
  · have hEPf : endsProper (mclCore text 5) = false := by
      cases he : endsProper (mclCore text 5)
      · rfl
      · exact absurd he hEP
    have hDot : mclDot (mclCore text 5) = mclCore text 5 ++ ['.'] := by
      unfold mclDot
      rw [if_pos ⟨hne1, by simp [hEPf]⟩]
    have hitemsDot : itemNums (mclCore text 5 ++ ['.']) = [1, 2, 3, 4, 5] := by
      rw [itemNums_snoc_dot hsafe1, hcore]
    have hmaxDot : maxItemNum (mclCore text 5 ++ ['.']) = some 5 := by
      rw [maxItemNum_of_itemNums hitemsDot]
      decide
    have hFin : mclFinal (mclCore text 5 ++ ['.']) 5 = mclCore text 5 ++ ['.'] := by
      unfold mclFinal
      rw [hmaxDot]
      norm_num
    have hTT : mclTruncate text 5 = mclCore text 5 ++ ['.'] := by
      unfold mclTruncate
      rw [hV, hRS1, hDot, hFin]
    have hEPdot : endsProper (mclCore text 5 ++ ['.']) = true := by
      unfold endsProper endsWithAnyChar
      rw [List.getLast?_concat]
      rfl
    have hRSdot : pyRstrip (mclCore text 5 ++ ['.']) = mclCore text 5 ++ ['.'] :=
      endsProper_pyRstrip_stable hEPdot
    rw [hTT]
    exact ⟨hitemsDot, hEPdot, hRSdot⟩

/-- C2 (amended): for a request matching `top 5`, on a text whose numbered
lines are exactly 1-8 in order and none of whose lines consists solely of
whitespace and digits, `_maybe_continue_list` returns a text containing
exactly items 1-5, ending in one of the code's accepted closing characters,
and applying `_maybe_continue_list` again (with any continuation oracle)
returns it unchanged. -/
theorem c2_exact_count_law (gen gen2 : GenRes) (msg text : Str)
    (hm : searchTopN (asciiLowerStr msg) = some 5)
    (hitems : itemNums text = [1, 2, 3, 4, 5, 6, 7, 8])
    (hsafe : ∀ l ∈ splitOnChar '\n' text, wsDigitsOnly (pyRstrip l) = false) :
    itemNums (maybe_continue_list gen msg text) = [1, 2, 3, 4, 5] ∧
    endsProper (maybe_continue_list gen msg text) = true ∧
    maybe_continue_list gen2 msg (maybe_continue_list gen msg text) =
      maybe_continue_list gen msg text := by
  have hmax8 : maxItemNum text = some 8 := by
    rw [maxItemNum_of_itemNums hitems]
    decide
  have hfirst : maybe_continue_list gen msg text = mclTruncate text 5 := by
    simp [maybe_continue_list, hm, hmax8]
  obtain ⟨hi, hp, hrs⟩ := mclTruncate_spec hitems hsafe
  rw [hfirst]
  refine ⟨hi, hp, ?_⟩
  have hmaxT : maxItemNum (mclTruncate text 5) = some 5 := by
    rw [maxItemNum_of_itemNums hi]
    decide
  simp [maybe_continue_list, hm, hmaxT, hrs, hp]

/-- C2 counterexample: two failures of the claim as stated.  First, on the
eight-item text whose fifth item ends in `:`, the repaired text ends in `:`,
not terminal sentence punctuation.  Second, on an eight-item text whose fifth
item lacks its final punctuation and which contains a whitespace-digit line,
re-applying the operation with a non-empty continuation oracle changes the
text, so the operation is not a no-op. -/
theorem c2_counterexample :
    (itemNums ("1. a.\n2. b.\n3. c.\n4. d.\n5. e:\n6. f.\n7. g.\n8. h.".data) =
        [1, 2, 3, 4, 5, 6, 7, 8] ∧
      endsWithAnyChar (pyRstrip (maybe_continue_list (GenRes.ok []) ("top 5".data)
        ("1. a.\n2. b.\n3. c.\n4. d.\n5. e:\n6. f.\n7. g.\n8. h.".data))) ['.', '!', '?']
        = false) ∧
    (itemNums ("1. a.\n2. b.\n3. c.\n4. d.\n5. e\n 12\n6. f.\n7. g.\n8. h.".data) =
        [1, 2, 3, 4, 5, 6, 7, 8] ∧
      maybe_continue_list (GenRes.ok ("X".data)) ("top 5".data)
          (maybe_continue_list (GenRes.ok []) ("top 5".data)
            ("1. a.\n2. b.\n3. c.\n4. d.\n5. e\n 12\n6. f.\n7. g.\n8. h.".data)) ≠
        maybe_continue_list (GenRes.ok []) ("top 5".data)
          ("1. a.\n2. b.\n3. c.\n4. d.\n5. e\n 12\n6. f.\n7. g.\n8. h.".data)) := by
  decide

/-- Witness for C2 (amended) at a concrete well-formed eight-item text. -/
theorem c2_witness :
    searchTopN (asciiLowerStr ("top 5".data)) = some 5 ∧
    itemNums ("1. aaa.\n2. bbb.\n3. ccc.\n4. ddd.\n5. eee.\n6. fff.\n7. ggg.\n8. hhh.".data) =
      [1, 2, 3, 4, 5, 6, 7, 8] ∧
    itemNums (maybe_continue_list (GenRes.ok []) ("top 5".data)
        ("1. aaa.\n2. bbb.\n3. ccc.\n4. ddd.\n5. eee.\n6. fff.\n7. ggg.\n8. hhh.".data)) =
      [1, 2, 3, 4, 5] ∧
    maybe_continue_list (GenRes.ok ("9. x.".data)) ("top 5".data)
        (maybe_continue_list (GenRes.ok []) ("top 5".data)
          ("1. aaa.\n2. bbb.\n3. ccc.\n4. ddd.\n5. eee.\n6. fff.\n7. ggg.\n8. hhh.".data)) =
      maybe_continue_list (GenRes.ok []) ("top 5".data)
        ("1. aaa.\n2. bbb.\n3. ccc.\n4. ddd.\n5. eee.\n6. fff.\n7. ggg.\n8. hhh.".data) :=
  ⟨by decide, by decide,
    (c2_exact_count_law (GenRes.ok []) (GenRes.ok ("9. x.".data)) ("top 5".data)
      ("1. aaa.\n2. bbb.\n3. ccc.\n4. ddd.\n5. eee.\n6. fff.\n7. ggg.\n8. hhh.".data)
      (by decide) (by decide) (by decide)).1,
    (c2_exact_count_law (GenRes.ok []) (GenRes.ok ("9. x.".data)) ("top 5".data)
      ("1. aaa.\n2. bbb.\n3. ccc.\n4. ddd.\n5. eee.\n6. fff.\n7. ggg.\n8. hhh.".data)
      (by decide) (by decide) (by decide)).2.2⟩
